import Mathlib

/-!
Verification development for `lead_formatter.py`, a social-media lead
normalization/deduplication pipeline.  The Python source is shallowly
embedded: Python values appearing in raw scraper records are modelled by
`PyVal`, fallible Python code by `Except PyErr`, and Python `float`
arithmetic by exact rationals (`ℚ`).  Strings are treated as ASCII text,
matching the inputs exercised by the specification.
-/

namespace LeadFormatter

/-- Python runtime errors that the embedded code can raise. -/
inductive PyErr where
  | typeError
  | valueError
  deriving DecidableEq, Repr

/-- Model of a Python value as found in a parsed JSON record: `None`,
booleans, integers, strings, lists and string-keyed dicts (modelled as
association lists in insertion order). -/
inductive PyVal where
  | none
  | bool (b : Bool)
  | int (n : Int)
  | str (s : String)
  | list (l : List PyVal)
  | dict (d : List (String × PyVal))

/-- Python truthiness: `bool(v)`. -/
def truthy : PyVal → Bool
  | .none => false
  | .bool b => b
  | .int n => n != 0
  | .str s => s != ""
  | .list l => !l.isEmpty
  | .dict d => !d.isEmpty

/-- `d.get(k)` on a Python dict: first matching key, else `None`. -/
def pyGet (item : List (String × PyVal)) (k : String) : PyVal :=
  match item.find? (fun p => p.1 == k) with
  | some p => p.2
  | Option.none => .none

/-- Python `a or b`: `a` if truthy, else `b`. -/
def pyOrV (a b : PyVal) : PyVal := if truthy a then a else b

/-! ## Python string helpers (ASCII model) -/

/-- The whitespace characters of the ASCII model — space, tab, newline,
carriage return, vertical tab, form feed — used for `str.strip()` and for
`\s` in patterns.  (Python additionally treats `\x1c`–`\x1f` and some
non-ASCII code points as whitespace; no claim involves those.) -/
def pyIsSpace (c : Char) : Bool :=
  c == ' ' || c == '\t' || c == '\n' || c == '\x0d' || c == '\x0b' || c == '\x0c'

def stripLeftBy (p : Char → Bool) (cs : List Char) : List Char :=
  cs.dropWhile p

def stripRightBy (p : Char → Bool) (cs : List Char) : List Char :=
  (cs.reverse.dropWhile p).reverse

def stripBy (p : Char → Bool) (cs : List Char) : List Char :=
  stripRightBy p (stripLeftBy p cs)

/-- Python `s.strip()`. -/
def pyStrip (s : String) : String := ⟨stripBy pyIsSpace s.data⟩

/-- Python `s.rstrip("/")`. -/
def pyRstripSlash (s : String) : String := ⟨stripRightBy (· == '/') s.data⟩

/-- Python `s.strip(chars)` for an explicit character set. -/
def pyStripSet (set : List Char) (s : String) : String :=
  ⟨stripBy (· ∈ set) s.data⟩

/-- ASCII lower-casing, as Python `str.lower()` acts on ASCII text. -/
def pyLowerStr (s : String) : String := ⟨s.data.map Char.toLower⟩

/-- Remove every occurrence of a character (Python `s.replace(c, "")`). -/
def removeChar (c : Char) (s : String) : String := ⟨s.data.filter (· != c)⟩

/-- Split a character list at every character satisfying `p`
(Python `re.split` on a single-character class); always non-empty. -/
def splitByP (p : Char → Bool) : List Char → List (List Char)
  | [] => [[]]
  | a :: rest =>
    let r := splitByP p rest
    if p a then [] :: r
    else
      match r with
      | [] => [[a]]
      | g :: gs => (a :: g) :: gs

/-- Python `s.split(c)` for a single-character separator. -/
def splitChar (c : Char) : List Char → List (List Char) := splitByP (· == c)

/-- Join character lists with a separator character (Python `c.join`). -/
def joinChar (c : Char) : List (List Char) → List Char
  | [] => []
  | [g] => g
  | g :: gs => g ++ c :: joinChar c gs

/- Collapse every run of whitespace to a single space
(Python `re.sub(r"\s+", " ", s)`); `skipWSThen` consumes the tail of a
whitespace run. -/
mutual

def collapseWS : List Char → List Char
  | [] => []
  | c :: rest =>
    if pyIsSpace c then ' ' :: skipWSThen rest
    else c :: collapseWS rest

def skipWSThen : List Char → List Char
  | [] => []
  | c :: rest =>
    if pyIsSpace c then skipWSThen rest
    else c :: collapseWS rest

end

/-- Python `re.sub(r"\s+", " ", s)` on a string. -/
def pyCollapseWS (s : String) : String := ⟨collapseWS s.data⟩

def isWordChar (c : Char) : Bool := c.isAlphanum || c == '_'

/-- Character-level string prefix test (`s.startswith(p)`). -/
def strStarts (p s : String) : Bool := p.data.isPrefixOf s.data

/-- Character-level string suffix test (`s.endswith(p)`). -/
def strEnds (p s : String) : Bool := p.data.isSuffixOf s.data

/-- Whether a character list contains two adjacent underscores. -/
def hasDoubleUnderscore : List Char → Bool
  | [] => false
  | '_' :: '_' :: _ => true
  | _ :: rest => hasDoubleUnderscore rest

def isDigitDot (c : Char) : Bool := c.isDigit || c == '.'

/-! ## Python `str()` / `repr()` (best effort, enough for the record shapes
the pipeline meets: strings, ints, bools, `None`, nested lists/dicts). -/

/- Python `repr`-like rendering, used by `str()` on non-string values. -/
mutual

def pyRepr : PyVal → String
  | .none => "None"
  | .bool true => "True"
  | .bool false => "False"
  | .int n => toString n
  | .str s => "'" ++ s ++ "'"
  | .list l => "[" ++ pyReprList l ++ "]"
  | .dict d => "\x7b" ++ pyReprPairs d ++ "\x7d"

def pyReprList : List PyVal → String
  | [] => ""
  | [v] => pyRepr v
  | v :: rest => pyRepr v ++ ", " ++ pyReprList rest

def pyReprPairs : List (String × PyVal) → String
  | [] => ""
  | [(k, v)] => "'" ++ k ++ "': " ++ pyRepr v
  | (k, v) :: rest => "'" ++ k ++ "': " ++ pyRepr v ++ ", " ++ pyReprPairs rest

end

/-- Python `str(v)`: identity on strings, `repr`-like elsewhere. -/
def pyStr : PyVal → String
  | .str s => s
  | v => pyRepr v

/-! ## Python `float(s)` modelled over exact rationals.

Finite values are represented exactly as rationals; `inf`/`nan` literals are
kept symbolic.  (Binary-float rounding and overflow-to-infinity are idealized
away; every claim below depends only on parse success, sign, or inputs on
which double rounding is exact, as noted at each use site.) -/

inductive PyFloat where
  | num (q : ℚ)
  | inf
  | nan
  deriving DecidableEq

/-- A run of digits possibly containing underscores, as Python numeric
literals allow (`1_000`): underscores must sit between two digits.
Returns the digit characters with underscores removed. -/
def digitRun? (cs : List Char) : Option (List Char) :=
  let ok : Bool :=
    !cs.isEmpty &&
    cs.all (fun c => c.isDigit || c == '_') &&
    (match cs.head? with | some c => c.isDigit | Option.none => false) &&
    (match cs.getLast? with | some c => c.isDigit | Option.none => false) &&
    !hasDoubleUnderscore cs
  if ok then some (cs.filter Char.isDigit) else Option.none

def digitsToNat (cs : List Char) : Nat :=
  cs.foldl (fun a c => a * 10 + (c.toNat - '0'.toNat)) 0

/-- Parse the mantissa part `d+[.d*] | .d+ | d+.`, with underscores,
returning its exact value. -/
def mantissa? (cs : List Char) : Option ℚ :=
  match splitChar '.' cs with
  | [intPart] =>
    match digitRun? intPart with
    | some d => some ((digitsToNat d : Int) : ℚ)
    | Option.none => Option.none
  | [intPart, fracPart] =>
    if intPart.isEmpty && fracPart.isEmpty then Option.none
    else
      match (if intPart.isEmpty then some [] else digitRun? intPart),
            (if fracPart.isEmpty then some [] else digitRun? fracPart) with
      | some di, some df =>
        some (((digitsToNat (di ++ df) : Int) : ℚ) / ((10 : ℚ) ^ df.length))
      | _, _ => Option.none
  | _ => Option.none

/-- Parse an optionally signed exponent `[+|-]d+` (with underscores). -/
def exponentPart? (cs : List Char) : Option Int :=
  match cs with
  | '+' :: rest => (digitRun? rest).map (fun d => (digitsToNat d : Int))
  | '-' :: rest => (digitRun? rest).map (fun d => -(digitsToNat d : Int))
  | rest => (digitRun? rest).map (fun d => (digitsToNat d : Int))

def qpow10 (e : Int) : ℚ :=
  if 0 ≤ e then (10 : ℚ) ^ e.toNat else 1 / (10 : ℚ) ^ (-e).toNat

/-- The unsigned body of a float literal: `inf`, `infinity`, `nan`, or a
decimal mantissa with optional `e`-exponent. -/
def floatBody? (cs : List Char) : Option PyFloat :=
  let low := cs.map Char.toLower
  if low = ['i', 'n', 'f'] || low = ['i', 'n', 'f', 'i', 'n', 'i', 't', 'y'] then
    some .inf
  else if low = ['n', 'a', 'n'] then some .nan
  else
    match splitChar 'e' low with
    | [m] => (mantissa? m).map .num
    | [m, e] =>
      match mantissa? m, exponentPart? e with
      | some mq, some ex => some (.num (mq * qpow10 ex))
      | _, _ => Option.none
    | _ => Option.none

/-- The optional sign of a float literal: whether it is negative, and the
remaining body. -/
def pySign (cs : List Char) : Bool × List Char :=
  match cs with
  | '+' :: rest => (false, rest)
  | '-' :: rest => (true, rest)
  | rest => (false, rest)

/-- Python `float(s)`: optional surrounding whitespace, optional sign,
then an `inf`/`nan` word or a decimal literal.  `Option.none` models
`ValueError`. -/
def pyFloatOfString (s : String) : Option PyFloat :=
  let cs := stripBy pyIsSpace s.data
  match floatBody? (pySign cs).2 with
  | some (.num q) => some (.num (if (pySign cs).1 then -q else q))
  | some .inf => some .inf
  | some .nan => some .nan
  | Option.none => Option.none

/-- Python `int(q)` on a float value: truncation toward zero. -/
def intTrunc (q : ℚ) : Int := if q < 0 then -(Rat.floor (-q)) else Rat.floor q

/-! ## `followers_to_int` (source lines 30–44)

```python
def followers_to_int(x):
    if x is None or x == "":
        return 0
    s = str(x).strip().lower().replace(",", "")
    m = re.match(r"^([\d\.]+)\s*([kmb])?$", s)
    if not m:
        try:
            return int(float(s))
        except:
            return 0
    num = float(m.group(1))          # can raise ValueError (e.g. s = ".")
    suf = (m.group(2) or "").lower()
    mult = {"k": 1e3, "m": 1e6, "b": 1e9}.get(suf, 1)
    return int(num * mult)
```

The anchored regex is decomposed deterministically: group 1 is the maximal
leading run of `[0-9.]`, then whitespace, then an optional single `k`/`m`/`b`
which must end the string (no other decomposition can match, as the three
character classes are pairwise disjoint).  The un-guarded `float(m.group(1))`
is the source's raise point, modelled with `Except`. -/
def followersToInt (x : PyVal) : Except PyErr Int :=
  match x with
  | .none => .ok 0
  | .str "" => .ok 0
  | x =>
    let s := removeChar ',' (pyLowerStr (pyStrip (pyStr x)))
    let ds := s.data.takeWhile isDigitDot
    let rest := s.data.dropWhile isDigitDot
    let rest2 := rest.dropWhile pyIsSpace
    if ds ≠ [] ∧ (rest2 = [] ∨ rest2 = ['k'] ∨ rest2 = ['m'] ∨ rest2 = ['b']) then
      match pyFloatOfString ⟨ds⟩ with
      | some (.num q) =>
        let mult : ℚ :=
          if rest2 = ['k'] then 1000
          else if rest2 = ['m'] then 1000000
          else if rest2 = ['b'] then 1000000000
          else 1
        .ok (intTrunc (q * mult))
      | _ => .error .valueError
    else
      match pyFloatOfString s with
      | some (.num q) => .ok (intTrunc q)
      | _ => .ok 0

/-! ## `urllib.parse.urlparse`, modelled after CPython

`urlsplit` removes tab/CR/LF, detects a scheme (`alpha` first character,
then scheme characters, up to the first `:`), splits `//netloc` up to the
next `/?#`, raises `ValueError` on a netloc with unbalanced square
brackets, then splits off fragment (first `#`) and query (first `?`).
`urlparse` additionally splits `;params` from the last path segment when
the scheme uses parameters.  Only ASCII input is modelled, so the
`_checknetloc` NFKC check never fires. -/

def removeTRN (cs : List Char) : List Char :=
  cs.filter (fun c => !(c == '\t' || c == '\x0d' || c == '\n'))

def schemeChar (c : Char) : Bool :=
  c.isAlphanum || c == '+' || c == '-' || c == '.'

/-- Scheme detection of `urlsplit`: the part before the first `:` when it
is a well-formed scheme; returns (lower-cased scheme, remainder). -/
def splitScheme (cs : List Char) : String × List Char :=
  match cs.findIdx? (· == ':') with
  | some i =>
    if (i != 0) && (match cs.head? with | some c => c.isAlpha | _ => false)
        && (cs.take i).all schemeChar then
      (⟨(cs.take i).map Char.toLower⟩, cs.drop (i + 1))
    else ("", cs)
  | Option.none => ("", cs)

/-- Schemes for which `urlparse` splits `;params` off the path. -/
def usesParams : List String :=
  ["", "ftp", "hdl", "prospero", "http", "imap", "https", "shttp", "rtsp",
   "rtsps", "rtspu", "sip", "sips", "mms", "sftp", "tel"]

/-- CPython `_splitparams`: split at the first `;` occurring in the last
`/`-segment (or anywhere when there is no `/`). -/
def splitParams (cs : List Char) : List Char × List Char :=
  if cs.contains '/' then
    let r := cs.length - 1 - ((cs.reverse.findIdx? (· == '/')).getD 0)
    match (cs.drop r).findIdx? (· == ';') with
    | some j => (cs.take (r + j), cs.drop (r + j + 1))
    | Option.none => (cs, [])
  else
    match cs.findIdx? (· == ';') with
    | some j => (cs.take j, cs.drop (j + 1))
    | Option.none => (cs, [])

/-- `_splitnetloc` cuts the netloc at the first `/`, `?` or `#`. -/
def notNetlocDelim (c : Char) : Bool := !(c == '/' || c == '?' || c == '#')

/-! ### `_check_bracketed_host` (CPython 3.11+)

A netloc containing both `[` and `]` has the text between the first `[`
and the following `]` validated: either an IPvFuture literal
(`v<hex>+.<rest>`, per `\Av[a-fA-F0-9]+\..+\Z`) or a valid IPv6 address
(optionally `%scope`-suffixed); anything else — including a bracketed
IPv4 address — raises `ValueError`.  (A valid IPv4 string can never pass
the IPv6 parser, so `ip_address` + the IPv4 rejection reduce to IPv6
validity.)  The IPv6 checker mirrors `ipaddress._ip_int_from_string`. -/

def isHexDigitChar (c : Char) : Bool :=
  c.isDigit || (decide ('a' ≤ c) && decide (c ≤ 'f'))
    || (decide ('A' ≤ c) && decide (c ≤ 'F'))

/-- A 1–4 character hex group of an IPv6 address. -/
def hextetOK (g : List Char) : Bool :=
  !g.isEmpty && decide (g.length ≤ 4) && g.all isHexDigitChar

/-- A decimal IPv4 octet: 1–3 digits, no leading zero, value ≤ 255. -/
def ipv4OctetOK (g : List Char) : Bool :=
  !g.isEmpty && g.all Char.isDigit && decide (g.length ≤ 3)
    && (g.length == 1 || g.head? != some '0')
    && decide (digitsToNat g ≤ 255)

def ipv4OK (cs : List Char) : Bool :=
  match splitChar '.' cs with
  | [a, b, c, d] => ipv4OctetOK a && ipv4OctetOK b && ipv4OctetOK c && ipv4OctetOK d
  | _ => false

/-- Validity of an IPv6 address body (no scope), following
`_ip_int_from_string`: split on `:`; an embedded trailing IPv4 quad
counts as two hex groups; at most one `::`; edge colons only as part of
`::`; the group count must be exactly 8 without `::` and at most 7 with. -/
def ipv6AddrOK (cs : List Char) : Bool :=
  let parts0 := splitChar ':' cs
  if decide (parts0.length < 3) then false
  else
    let parts :=
      match parts0.getLast? with
      | some lastP =>
        if lastP.contains '.' then
          if ipv4OK lastP then parts0.dropLast ++ [['0'], ['0']] else []
        else parts0
      | Option.none => parts0
    if parts.isEmpty then false
    else if decide (9 < parts.length) then false
    else
      let n := parts.length
      let middles := (parts.drop 1).dropLast
      let emptyMid := middles.countP (fun g => g.isEmpty)
      let headEmpty :=
        match parts.head? with
        | some g => g.isEmpty
        | Option.none => false
      let lastEmpty :=
        match parts.getLast? with
        | some g => g.isEmpty
        | Option.none => false
      if decide (2 ≤ emptyMid) then false
      else if emptyMid == 1 then
        let k := 1 + middles.findIdx (fun g => g.isEmpty)
        let hi := if headEmpty then k - 1 else k
        let lo := if lastEmpty then n - k - 2 else n - k - 1
        (!headEmpty || k == 1) && (!lastEmpty || k == n - 2)
          && decide (hi + lo ≤ 7)
          && (parts.take hi).all hextetOK
          && ((parts.drop (n - lo)).all hextetOK)
      else
        !headEmpty && !lastEmpty && (n == 8) && parts.all hextetOK

/-- IPv6 with an optional non-empty `%scope` suffix. -/
def ipv6OK (cs : List Char) : Bool :=
  let addr := cs.takeWhile (· != '%')
  match cs.dropWhile (· != '%') with
  | [] => ipv6AddrOK addr
  | _ :: zone => !zone.isEmpty && !zone.contains '%' && ipv6AddrOK addr

/-- `\Av[a-fA-F0-9]+\..+\Z` applied after the leading `v`. -/
def ipvFutureOK (rest : List Char) : Bool :=
  let hexs := rest.takeWhile isHexDigitChar
  !hexs.isEmpty &&
    (match rest.dropWhile isHexDigitChar with
     | '.' :: tail => !tail.isEmpty && !tail.contains '\n'
     | _ => false)

def bracketedHostOK (host : List Char) : Bool :=
  match host with
  | 'v' :: rest => ipvFutureOK rest
  | _ => ipv6OK host

/-- `netloc.partition('[')[2].partition(']')[0]`. -/
def bracketedPart (netloc : List Char) : List Char :=
  ((netloc.dropWhile (· != '[')).drop 1).takeWhile (· != ']')

/-- The two `ValueError` conditions of `urlsplit` on a netloc: unbalanced
square brackets, or a balanced bracketed host that is neither IPv6 nor
IPvFuture. -/
def netlocInvalid (netloc : List Char) : Bool :=
  (netloc.contains '[' && !netloc.contains ']')
    || (netloc.contains ']' && !netloc.contains '[')
    || (netloc.contains '[' && netloc.contains ']'
        && !bracketedHostOK (bracketedPart netloc))

structure UrlParts where
  scheme : String
  netloc : String
  path : String
  params : String
  query : String
  fragment : String
  deriving DecidableEq, Repr

/-- `urlparse(url)`; `Option.none` models the `ValueError` raised on an
invalid bracketed netloc.  The URL is first stripped of leading
C0-control/space characters (codes ≤ 32) and then of every tab, CR and
LF, as CPython 3.11 does.  `url.split(c, 1)` is rendered as the
`takeWhile`/`dropWhile`-`drop 1` pair. -/
def urlparseM (url : String) : Option UrlParts :=
  let cs := removeTRN (url.data.dropWhile (fun c => c.toNat ≤ 32))
  let scheme := (splitScheme cs).1
  let rest := (splitScheme cs).2
  let netloc :=
    if rest.take 2 = ['/', '/'] then (rest.drop 2).takeWhile notNetlocDelim
    else []
  let rest2 :=
    if rest.take 2 = ['/', '/'] then (rest.drop 2).dropWhile notNetlocDelim
    else rest
  if netlocInvalid netloc then Option.none
  else
    let rest3 := rest2.takeWhile (· != '#')
    let fragment := (rest2.dropWhile (· != '#')).drop 1
    let rest4 := rest3.takeWhile (· != '?')
    let query := (rest3.dropWhile (· != '?')).drop 1
    let pp :=
      if usesParams.contains scheme && rest4.contains ';' then splitParams rest4
      else (rest4, [])
    some ⟨scheme, ⟨netloc⟩, ⟨pp.1⟩, ⟨pp.2⟩, ⟨query⟩, ⟨fragment⟩⟩

/-! ## `canon_url` (source lines 46–60)

```python
def canon_url(u: str) -> str:
    if not u:
        return ""
    try:
        pu = urlparse(u)
        host = (pu.netloc or "").lower()
        path = (pu.path or "").rstrip("/")
        if not host and pu.path:
            host = pu.path.split("/")[0].lower()
            path = "/" + "/".join(pu.path.split("/")[1:]).rstrip("/")
        return f"https://{host}{path}"
    except:
        return u.strip()
```
-/
def canonUrl (u : String) : String :=
  if u = "" then ""
  else
    match urlparseM u with
    | Option.none => pyStrip u
    | some pu =>
      let host := pyLowerStr pu.netloc
      let path := pyRstripSlash pu.path
      if host = "" ∧ pu.path ≠ "" then
        match splitChar '/' pu.path.data with
        | [] => "https://"
        | seg0 :: segs =>
          "https://" ++ pyLowerStr ⟨seg0⟩ ++ "/"
            ++ ⟨stripRightBy (· == '/') (joinChar '/' segs)⟩
      else "https://" ++ host ++ path

/-- `canon_url` as invoked from `normalize_item`: its argument is a raw
JSON value.  A falsy value returns `""`; a truthy non-string raises (either
inside `urlparse` and then again at `u.strip()` in the bare `except`). -/
def pyCanonUrl (v : PyVal) : Except PyErr String :=
  if truthy v then
    match v with
    | .str s => .ok (canonUrl s)
    | _ => .error .typeError
  else .ok ""

/-- Static host table (source lines 18–24), in insertion order. -/
def PLATFORM_HOSTS : List (String × List String) :=
  [("instagram", ["instagram.com"]),
   ("twitter", ["twitter.com", "x.com"]),
   ("facebook", ["facebook.com", "fb.com", "m.facebook.com"]),
   ("linkedin", ["linkedin.com", "www.linkedin.com"]),
   ("youtube", ["youtube.com", "www.youtube.com", "youtu.be"])]

/-- `detect_platform` (source lines 62–68): `urlparse(url).netloc` can
raise `ValueError`, which the function does not catch. -/
def detectPlatform (url fallbackPlatform : String) : Except PyErr String :=
  match urlparseM url with
  | Option.none => .error .valueError
  | some pu =>
    let host := pyLowerStr pu.netloc
    match PLATFORM_HOSTS.find? (fun p => p.2.contains host) with
    | some p => .ok p.1
    | Option.none => .ok (pyLowerStr fallbackPlatform)

/-! ## `URL_RE` and `extract_external_links_from_bio` (lines 26, 70–85)

`URL_RE = re.compile(r'(?i)\b((?:https?://|www\.)[a-z0-9\-._~%]+(?:/[^\s<>"\)]*)?)')`

The scanner below reproduces `finditer` for this pattern: at each position
with a word boundary it tries the literal head `https://` / `http://` /
`www.` case-insensitively (the regex alternation is deterministic: after
`http` a greedy `s?` is forced by the following `://`), then a maximal run
of host characters (at least one), then an optional `/`-introduced tail of
non-`\s<>")` characters.  No backtracking is possible because the three
character regions are delimiter-disjoint.  Matches do not overlap;
scanning resumes after each match. -/

def hostChar (c : Char) : Bool :=
  c.isAlphanum || c == '-' || c == '.' || c == '_' || c == '~' || c == '%'

def tailChar (c : Char) : Bool :=
  !(pyIsSpace c || c == '<' || c == '>' || c == '"' || c == ')')

/-- Consume `pat` (a lowercase literal) case-insensitively; returns the
consumed original characters and the remainder. -/
def ciTake (pat : List Char) (cs : List Char) : Option (List Char × List Char) :=
  match pat, cs with
  | [], cs => some ([], cs)
  | p :: ps, c :: cs =>
    if c.toLower == p then (ciTake ps cs).map (fun r => (c :: r.1, r.2))
    else Option.none
  | _ :: _, [] => Option.none

def urlHeadMatch (cs : List Char) : Option (List Char × List Char) :=
  (ciTake "https://".data cs).orElse fun _ =>
    (ciTake "http://".data cs).orElse fun _ =>
      ciTake "www.".data cs

def urlMatchAt (cs : List Char) : Option (List Char × List Char) :=
  match urlHeadMatch cs with
  | Option.none => Option.none
  | some (h, r) =>
    let body := r.takeWhile hostChar
    if body.isEmpty then Option.none
    else
      match r.dropWhile hostChar with
      | '/' :: r3 =>
        some (h ++ body ++ '/' :: r3.takeWhile tailChar, r3.dropWhile tailChar)
      | r2 => some (h ++ body, r2)

/-- `finditer(URL_RE, text)`, tracking the word-boundary state (`\b` holds
at a candidate start iff the previous character is not a word character,
since every match starts with the word character `h`/`w`). -/
def urlScan (fuel : Nat) (prevWord : Bool) (cs : List Char) : List String :=
  match fuel, cs with
  | 0, _ => []
  | _ + 1, [] => []
  | fuel + 1, c :: rest =>
    if !prevWord then
      match urlMatchAt (c :: rest) with
      | some (m, r) =>
        let lastWord := match m.getLast? with
          | some x => isWordChar x
          | Option.none => false
        (⟨m⟩ : String) :: urlScan fuel lastWord r
      | Option.none => urlScan fuel (isWordChar c) rest
    else urlScan fuel (isWordChar c) rest

def findUrls (bio : String) : List String :=
  urlScan (bio.data.length + 1) false bio.data

/-- The normalization loop of `extract_external_links_from_bio`:
`www.`-prefixed matches (case-insensitively) get `https://` prepended;
entries are stripped, dropped if empty, and deduplicated first-seen. -/
def normLinks : List String → List String → List String
  | [], _ => []
  | u :: rest, seen =>
    let u2 := if strStarts "www." (pyLowerStr u) then "https://" ++ u else u
    let cu := pyStrip u2
    if cu ≠ "" && !seen.contains cu then cu :: normLinks rest (cu :: seen)
    else normLinks rest seen

def extractExternalLinksFromBio (bio : String) : List String :=
  if bio = "" then []
  else normLinks (findUrls bio) []

/-- `extract_external_links_from_bio` as invoked with a raw JSON value:
falsy yields `[]` (the `if not bio` guard); a truthy non-string raises
inside `finditer`. -/
def pyExtractLinks (v : PyVal) : Except PyErr (List String) :=
  if truthy v then
    match v with
    | .str s => .ok (extractExternalLinksFromBio s)
    | _ => .error .typeError
  else .ok []

/-! ## `EMAIL_RE.fullmatch` (line 27)

`EMAIL_RE = re.compile(r"(?i)\b[a-z0-9._%+-]+@[a-z0-9.-]+\.[a-z]{2,}\b")`

A full match decomposes uniquely: the local part cannot contain `@`, so the
string must contain exactly one `@`; the TLD cannot contain `.`, so the
`\.` of the pattern is the domain's last dot.  The leading `\b` requires
the first character to be a word character; the trailing `\b` always holds
because the TLD ends in a letter. -/

def emailLocalChar (c : Char) : Bool :=
  c.isAlphanum || c == '.' || c == '_' || c == '%' || c == '+' || c == '-'

def emailDomChar (c : Char) : Bool :=
  c.isAlphanum || c == '.' || c == '-'

def emailFullmatch (s : String) : Bool :=
  match splitChar '@' s.data with
  | [loc, dom] =>
    let parts := splitChar '.' dom
    (match parts.getLast? with
     | some tld =>
       !loc.isEmpty && loc.all emailLocalChar
         && (match loc.head? with | some c => isWordChar c | _ => false)
         && dom.all emailDomChar
         && parts.dropLast.length != 0
         && !(joinChar '.' parts.dropLast).isEmpty
         && decide (2 ≤ tld.length) && tld.all Char.isAlpha
     | Option.none => false)
  | _ => false

/-! ## `_coerce_list`, `_unique`, `pull_email_and_phone` (lines 121–166) -/

/-- `_coerce_list`: `None` → `[]`; list → trimmed stringified non-empty
entries; string → split on `;`/`,` into trimmed non-empty parts, falling
back to the whole trimmed string; anything else → its trimmed `str()`. -/
def coerceList (v : PyVal) : List String :=
  match v with
  | .none => []
  | .list l => (l.map (fun x => pyStrip (pyStr x))).filter (· ≠ "")
  | .str s =>
    let pieces := ((splitByP (fun c => c == ';' || c == ',') s.data).map
      (fun g => pyStrip ⟨g⟩)).filter (· ≠ "")
    if pieces ≠ [] then pieces
    else if pyStrip s ≠ "" then [pyStrip s] else []
  | v => [pyStrip (pyStr v)]

def uniqueGo : List String → List String → List String
  | [], _ => []
  | s :: rest, seen =>
    if seen.contains s then uniqueGo rest seen
    else s :: uniqueGo rest (s :: seen)

/-- `_unique`: first-seen order deduplication. -/
def uniqueList (l : List String) : List String := uniqueGo l []

def emailFields : List String :=
  ["email", "email_id", "emails", "contact_email", "business_email", "public_email"]

def phoneFields : List String :=
  ["phone", "phone_number", "phones", "contact_phone", "mobile", "whatsapp", "business_phone"]

/-- The accumulation loops of `pull_email_and_phone`: for each alias key
with a truthy value, extend with its coerced list. -/
def gatherFields (item : List (String × PyVal)) (fields : List String) : List String :=
  fields.foldl
    (fun acc k =>
      let v := pyGet item k
      if truthy v then acc ++ coerceList v else acc) []

def pullEmailAndPhone (item : List (String × PyVal)) : String × String :=
  let emails := uniqueList ((gatherFields item emailFields).filter emailFullmatch)
  let rawPhones := gatherFields item phoneFields
  let phones := uniqueList
    ((rawPhones.filter (fun p => pyStrip p ≠ "")).map (fun p => pyStrip (pyCollapseWS p)))
  (emails.headD "", phones.headD "")

/-! ## `glean_location` (lines 87–103) -/

def locationKeys : List String :=
  ["location", "location_name", "city", "region", "state", "country",
   "hometown", "place", "address", "geo"]

def joinWith (sep : String) : List String → String
  | [] => ""
  | [x] => x
  | x :: rest => x ++ sep ++ joinWith sep rest

def gleanGo (item : List (String × PyVal)) : List String → String
  | [] => ""
  | k :: rest =>
    match pyGet item k with
    | .str s => if pyStrip s ≠ "" then pyStrip s else gleanGo item rest
    | .dict d =>
      if d.isEmpty then gleanGo item rest
      else
        let parts := (d.filter (fun p => truthy p.2)).map (fun p => pyStrip (pyStr p.2))
        if parts ≠ [] then joinWith ", " parts else gleanGo item rest
    | _ => gleanGo item rest

/-- Best-effort location extraction over the alias chain; nested dict
values are flattened to a comma-joined string of their truthy values. -/
def gleanLocation (item : List (String × PyVal)) : String :=
  gleanGo item locationKeys

/-! ## `mine_phones_from_bio` (lines 170–190)

Two patterns, scanned in sequence over the whole bio:
(a) `(?:(?:\+|00)?91[\s\-\(\)]*)?0?[6-9]\d{9}`
(b) `\+?\d(?:[\s\-\.\(\)]*\d){7,}`
Both matchers reproduce the regex engine's alternative ordering and
greediness (separator classes are digit-disjoint, so greedy runs never
need to give characters back). -/

def sepA (c : Char) : Bool := pyIsSpace c || c == '-' || c == '(' || c == ')'

def sepB (c : Char) : Bool :=
  pyIsSpace c || c == '-' || c == '.' || c == '(' || c == ')'

def takeExactDigits : Nat → List Char → Option (List Char × List Char)
  | 0, cs => some ([], cs)
  | n + 1, c :: cs =>
    if c.isDigit then (takeExactDigits n cs).map (fun r => (c :: r.1, r.2))
    else Option.none
  | _ + 1, [] => Option.none

/-- `[6-9]\d{9}`. -/
def match69d9 : List Char → Option (List Char × List Char)
  | c :: rest =>
    if ['6', '7', '8', '9'].contains c then
      (takeExactDigits 9 rest).map (fun r => (c :: r.1, r.2))
    else Option.none
  | [] => Option.none

/-- `0?[6-9]\d{9}` (greedy `0?`). -/
def matchCoreA (cs : List Char) : Option (List Char × List Char) :=
  match cs with
  | '0' :: rest =>
    match match69d9 rest with
    | some (m, r) => some ('0' :: m, r)
    | Option.none => match69d9 cs
  | _ => match69d9 cs

/-- `91[\s\-\(\)]*` followed by the core, with `pre` the already-consumed
optional `+`/`00`. -/
def matchAfterPre (pre rest : List Char) : Option (List Char × List Char) :=
  match rest with
  | '9' :: '1' :: r2 =>
    let seps := r2.takeWhile sepA
    (matchCoreA (r2.dropWhile sepA)).map
      (fun r => (pre ++ '9' :: '1' :: (seps ++ r.1), r.2))
  | _ => Option.none

/-- Pattern (a): optional `(?:\+|00)?91…` prefix group (tried in regex
order: `+`, `00`, bare `91`, then no prefix at all). -/
def matchA (cs : List Char) : Option (List Char × List Char) :=
  (match cs with
   | '+' :: r => matchAfterPre ['+'] r
   | _ => Option.none).orElse fun _ =>
  (match cs with
   | '0' :: '0' :: r => matchAfterPre ['0', '0'] r
   | _ => Option.none).orElse fun _ =>
  (matchAfterPre [] cs).orElse fun _ =>
  matchCoreA cs

/-- Greedy repetition `(?:[\s\-\.\(\)]*\d)*`, returning the repetition
count, consumed characters and remainder. -/
def repsB (fuel : Nat) (cs : List Char) : Nat × List Char × List Char :=
  match fuel with
  | 0 => (0, [], cs)
  | fuel + 1 =>
    let seps := cs.takeWhile sepB
    match cs.dropWhile sepB with
    | d :: r =>
      if d.isDigit then
        let (n, m, rest) := repsB fuel r
        (n + 1, seps ++ d :: m, rest)
      else (0, [], cs)
    | [] => (0, [], cs)

/-- Pattern (b): `\+?\d(?:[\s\-\.\(\)]*\d){7,}`. -/
def matchB (cs : List Char) : Option (List Char × List Char) :=
  let (plus, r) : List Char × List Char :=
    match cs with
    | '+' :: r => (['+'], r)
    | _ => ([], cs)
  match r with
  | d :: r2 =>
    if d.isDigit then
      let (n, m, rest) := repsB r2.length r2
      if 7 ≤ n then some (plus ++ d :: m, rest) else Option.none
    else Option.none
  | [] => Option.none

/-- `finditer` for a pattern without boundary assertions: try the matcher
at each position, skipping one character on failure and resuming after
each (non-empty) match. -/
def reScan (f : List Char → Option (List Char × List Char)) :
    Nat → List Char → List (List Char)
  | 0, _ => []
  | _ + 1, [] => []
  | fuel + 1, c :: rest =>
    match f (c :: rest) with
    | some (m, r) => m :: reScan f fuel r
    | Option.none => reScan f fuel rest

/-- The dedup/cleanup loop of `mine_phones_from_bio`. -/
def mineLoop : List (List Char) → List String → List String
  | [], _ => []
  | m :: rest, seen =>
    let raw := pyStrip (pyCollapseWS ⟨m⟩)
    let cleaned := pyStripSet [' ', '-', '(', ')', '.'] raw
    if seen.contains cleaned then mineLoop rest seen
    else cleaned :: mineLoop rest (cleaned :: seen)

def minePhonesFromBio (bio : String) : List String :=
  if bio = "" then []
  else
    let fuel := bio.data.length + 1
    mineLoop (reScan matchA fuel bio.data ++ reScan matchB fuel bio.data) []

/-! ## `normalize_item` (lines 194–230) and the `Lead` shape -/

/-- The canonical Lead record.  `location` and `website` are raw Python
values: `normalize_item` copies them without coercion. -/
structure Lead where
  social_media : String
  platform : String
  handle : String
  display_name : String
  canonical_url : String
  followers_int : Int
  bio : String
  verified_bool : Bool
  business_bool : Bool
  location : PyVal
  website : PyVal
  email : String
  phone : String
  source_file : String
  external_links : List String
  linkedin_1 : String
  linkedin_2 : String
  linkedin_3 : String

/-- `(v or "").lower()`: raises on a truthy non-string. -/
def pyLowerOfVal (v : PyVal) : Except PyErr String :=
  match v with
  | .str s => .ok (pyLowerStr s)
  | _ => if truthy v then .error .typeError else .ok ""

/-- `(v or "").strip()`: raises on a truthy non-string. -/
def pyStripOfVal (v : PyVal) : Except PyErr String :=
  match v with
  | .str s => .ok (pyStrip s)
  | _ => if truthy v then .error .typeError else .ok ""

/-- `normalize_item(item, source_file)`, with the source's evaluation
order preserved for the raise points (`.lower()` on the platform field,
`canon_url`, `detect_platform`, `URL_RE.finditer` on the bio, then inside
the dict literal the `.strip()` calls and `followers_to_int`). -/
def normalizeItem (item : List (String × PyVal)) (sourceFile : String) :
    Except PyErr Lead := do
  let platformRaw ← pyLowerOfVal (pyOrV (pyGet item "platform") (.str ""))
  let handleV := pyOrV (pyGet item "username") (pyOrV (pyGet item "handle") (.str ""))
  let displayNameV := pyOrV (pyGet item "display_name") (pyOrV (pyGet item "name") (.str ""))
  let rawUrl := pyOrV (pyGet item "url") (pyOrV (pyGet item "profile_url") (.str ""))
  let canonicalUrl ← pyCanonUrl rawUrl
  let bioV := pyOrV (pyGet item "bio")
    (pyOrV (pyGet item "biography") (pyOrV (pyGet item "description") (.str "")))
  let followersRaw := pyOrV (pyGet item "followers")
    (pyOrV (pyGet item "followers_count") (pyOrV (pyGet item "follower_count") (.str "")))
  let verified := pyOrV (pyGet item "is_verified") (pyOrV (pyGet item "verified") (.bool false))
  let business := pyOrV (pyGet item "is_business_account")
    (pyOrV (pyGet item "business") (.bool false))
  let website := pyOrV (pyGet item "website") (pyOrV (pyGet item "external_url") (.str ""))
  let location := pyOrV (pyGet item "location") (.str (gleanLocation item))
  let socialMedia ← detectPlatform canonicalUrl platformRaw
  let externalLinks ← pyExtractLinks bioV
  let ep := pullEmailAndPhone item
  let handle ← pyStripOfVal handleV
  let displayName ← pyStripOfVal displayNameV
  let followersInt ← followersToInt followersRaw
  let bio ← pyStripOfVal bioV
  pure
    { social_media := socialMedia
      platform := if platformRaw ≠ "" then platformRaw else socialMedia
      handle := handle
      display_name := displayName
      canonical_url := canonicalUrl
      followers_int := followersInt
      bio := bio
      verified_bool := truthy verified
      business_bool := truthy business
      location := location
      website := website
      email := ep.1
      phone := ep.2
      source_file := sourceFile
      external_links := externalLinks
      linkedin_1 := ""
      linkedin_2 := ""
      linkedin_3 := "" }

/-! ## Deduplication (main, lines 318–330) and bio phone mining (310–316) -/

/-- The identity key of a Lead at input position `idx`:
`(social_media, canonical_url)`, else `(social_media, "@" + handle.lower())`,
else the always-fresh `(social_media, f"row-{idx}-{source_file}")`. -/
def dedupKey (idx : Nat) (L : Lead) : String × String :=
  if L.canonical_url ≠ "" then (L.social_media, L.canonical_url)
  else if L.handle ≠ "" then (L.social_media, "@" ++ pyLowerStr L.handle)
  else (L.social_media, "row-" ++ Nat.repr idx ++ "-" ++ L.source_file)

def enumFrom : Nat → List Lead → List (Nat × Lead)
  | _, [] => []
  | n, L :: rest => (n, L) :: enumFrom (n + 1) rest

def dedupGo : List (Nat × Lead) → List (String × String) → List Lead
  | [], _ => []
  | (i, L) :: rest, seen =>
    let k := dedupKey i L
    if k ∈ seen then dedupGo rest seen
    else L :: dedupGo rest (k :: seen)

/-- Step 2 of `main`: first occurrence of each key is kept. -/
def dedup (leads : List Lead) : List Lead := dedupGo (enumFrom 0 leads) []

/-- One iteration of the optional bio-mining loop: fill `phone` from the
bio only when the existing phone is empty, taking the first hit. -/
def mineOne (L : Lead) : Lead :=
  if L.phone = "" then
    match minePhonesFromBio L.bio with
    | [] => L
    | n :: _ => { L with phone := n }
  else L

/-- The bio-mining stage of `main`, gated on `--mine-contacts-from-bio`. -/
def mineStage (flag : Bool) (leads : List Lead) : List Lead :=
  if flag then leads.map mineOne else leads

/-- The raw followers value selected by `normalize_item` (line 202). -/
def followersField (item : List (String × PyVal)) : PyVal :=
  pyOrV (pyGet item "followers")
    (pyOrV (pyGet item "followers_count") (pyOrV (pyGet item "follower_count") (.str "")))

/-! ## General facts used across the claims -/

theorem bindOkInv {ε α β : Type} {e : Except ε α} {f : α → Except ε β} {b : β}
    (h : e >>= f = .ok b) : ∃ a, e = .ok a ∧ f a = .ok b := by
  cases e with
  | error er => exact absurd h (by simp [Bind.bind, Except.bind])
  | ok a => exact ⟨a, rfl, by simpa [Bind.bind, Except.bind] using h⟩

theorem toNat_toLower_of_upper {c : Char} (h1 : 65 ≤ c.toNat) (h2 : c.toNat ≤ 90) :
    (Char.toLower c).toNat = c.toNat + 32 := by
  have hv : (c.toNat + 32).isValidChar := Or.inl (by omega)
  simp only [Char.toLower]
  rw [if_pos ⟨h1, h2⟩, Char.ofNat, dif_pos hv]
  simp [Char.ofNatAux, Char.toNat, UInt32.toNat, BitVec.toNat_ofNatLt]

/-- `Char.toLower` fixes every character below `'a'` (code 97). -/
theorem toLower_eq_low {c d : Char} (hd : d.toNat < 97) (h : Char.toLower c = d) :
    c = d := by
  by_cases hc : 65 ≤ c.toNat ∧ c.toNat ≤ 90
  · have hn := toNat_toLower_of_upper hc.1 hc.2
    rw [h] at hn
    omega
  · have hself : Char.toLower c = c := by
      simp only [Char.toLower]
      exact if_neg fun hh => hc ⟨hh.1, hh.2⟩
    rw [hself] at h
    exact h

theorem mem_map_toLower {c : Char} {l : List Char} (hc : c.toNat < 97)
    (h : c ∈ l.map Char.toLower) : c ∈ l := by
  obtain ⟨a, ha, he⟩ := List.mem_map.mp h
  have : a = c := toLower_eq_low hc he
  exact this ▸ ha

theorem mem_of_mem_stripRightBy {c : Char} {p : Char → Bool} {l : List Char}
    (h : c ∈ stripRightBy p l) : c ∈ l := by
  unfold stripRightBy at h
  have h1 := List.mem_reverse.mp h
  have h2 := (List.dropWhile_sublist (l := l.reverse) (p := p)).subset h1
  exact List.mem_reverse.mp h2

theorem mem_of_mem_stripBy {c : Char} {p : Char → Bool} {l : List Char}
    (h : c ∈ stripBy p l) : c ∈ l := by
  unfold stripBy stripLeftBy at h
  exact (List.dropWhile_sublist (l := l) (p := p)).subset (mem_of_mem_stripRightBy h)

theorem isPrefixOf_append_self (l₁ l₂ : List Char) :
    l₁.isPrefixOf (l₁ ++ l₂) = true := by
  induction l₁ with
  | nil => simp [List.isPrefixOf]
  | cons a t ih => simp [List.isPrefixOf, ih]

theorem head?_dropWhile_not (p : Char → Bool) (l : List Char) :
    (l.dropWhile p).head? = Option.none ∨
      ∃ c, (l.dropWhile p).head? = some c ∧ p c = false := by
  induction l with
  | nil => left; rfl
  | cons a t ih =>
    by_cases h : p a = true
    · simpa [List.dropWhile_cons, h] using ih
    · right
      refine ⟨a, ?_, by simpa using h⟩
      simp [List.dropWhile_cons, h]

theorem getLast?_stripRightBy (p : Char → Bool) (l : List Char) :
    stripRightBy p l = [] ∨
      ∃ c, (stripRightBy p l).getLast? = some c ∧ p c = false := by
  unfold stripRightBy
  rcases head?_dropWhile_not p l.reverse with h | ⟨c, hc, hpc⟩
  · left
    rw [List.head?_eq_none_iff] at h
    simp [h]
  · right
    refine ⟨c, ?_, hpc⟩
    rw [List.getLast?_reverse]
    exact hc

theorem splitByP_ne_nil (p : Char → Bool) (l : List Char) : splitByP p l ≠ [] := by
  cases l with
  | nil => simp [splitByP]
  | cons a t =>
    simp only [splitByP]
    by_cases h : p a = true
    · simp [h]
    · simp only [h, if_false]
      cases splitByP p t <;> simp

theorem splitByP_mem_false {p : Char → Bool} :
    ∀ {l g : List Char} {c : Char}, g ∈ splitByP p l → c ∈ g → p c = false := by
  intro l
  induction l with
  | nil =>
    intro g c hg hc
    simp only [splitByP, List.mem_singleton] at hg
    subst hg
    cases hc
  | cons a t ih =>
    intro g c hg hc
    simp only [splitByP] at hg
    by_cases hpa : p a = true
    · rw [if_pos hpa] at hg
      rcases List.mem_cons.mp hg with rfl | hmem
      · cases hc
      · exact ih hmem hc
    · rw [if_neg hpa] at hg
      cases hsp : splitByP p t with
      | nil => exact absurd hsp (splitByP_ne_nil p t)
      | cons g0 gs =>
        rw [hsp] at hg
        rcases List.mem_cons.mp hg with rfl | hmem
        · rcases List.mem_cons.mp hc with rfl | hc0
          · simpa using hpa
          · exact ih (hsp ▸ List.mem_cons_self g0 gs) hc0
        · exact ih (hsp ▸ List.mem_cons_of_mem g0 hmem) hc

theorem isPrefixOf_singleton_iff (c : Char) (m : List Char) :
    [c].isPrefixOf m = true ↔ m.head? = some c := by
  cases m with
  | nil => simp [List.isPrefixOf]
  | cons b bs =>
    show (c == b && List.isPrefixOf [] bs) = true ↔ _
    simp only [List.isPrefixOf, Bool.and_true, beq_iff_eq, List.head?_cons,
      Option.some.injEq]
    exact ⟨fun h => h.symm, fun h => h.symm⟩

theorem strEnds_slash_iff (s : String) :
    strEnds "/" s = true ↔ s.data.getLast? = some '/' := by
  unfold strEnds
  show List.isSuffixOf ['/'] s.data = true ↔ _
  unfold List.isSuffixOf
  rw [show List.reverse ['/'] = ['/'] from rfl]
  rw [isPrefixOf_singleton_iff, List.head?_reverse]

/-- The netloc produced by `urlparseM` never contains `/`, `?` or `#`. -/
theorem urlparseM_netloc_delim {u : String} {pu : UrlParts}
    (h : urlparseM u = some pu) : ∀ c ∈ pu.netloc.data, notNetlocDelim c = true := by
  unfold urlparseM at h
  dsimp only at h
  split at h <;> split at h
  · exact absurd h (by simp)
  · simp only [Option.some.injEq] at h
    subst h
    intro c hc
    exact List.mem_takeWhile_imp hc
  · exact absurd h (by simp)
  · simp only [Option.some.injEq] at h
    subst h
    intro c hc
    simp at hc

theorem urlparseM_netloc_no_slash {u : String} {pu : UrlParts}
    (h : urlparseM u = some pu) : '/' ∉ pu.netloc.data := by
  intro hm
  have := urlparseM_netloc_delim h '/' hm
  simp [notNetlocDelim] at this

theorem strData_eq {s t : String} (h : s.data = t.data) : s = t := by
  cases s; cases t; cases h; rfl

theorem strAppend_data (s t : String) : (s ++ t).data = s.data ++ t.data := by
  cases s; cases t; rfl

theorem strStarts_of_data {p s : String} (h : ∃ r, s.data = p.data ++ r) :
    strStarts p s = true := by
  obtain ⟨r, hr⟩ := h
  unfold strStarts
  rw [hr]
  exact isPrefixOf_append_self _ _

theorem lastMap (f : Char → Char) (l : List Char) :
    (l.map f).getLast? = (l.getLast?).map f := by
  induction l with
  | nil => rfl
  | cons a t ih =>
    cases t with
    | nil => rfl
    | cons b u => simpa using ih

theorem mem_of_lastEq {l : List Char} {a : Char} (h : l.getLast? = some a) :
    a ∈ l := by
  induction l with
  | nil => cases h
  | cons b t ih =>
    cases t with
    | nil =>
      simp only [List.getLast?_singleton, Option.some.injEq] at h
      simp [h]
    | cons c u =>
      rw [List.getLast?_cons_cons] at h
      exact List.mem_cons_of_mem b (ih h)

/-! ## Claim theorems -/

/-- C1: the spec claims `canon_url` is idempotent; the code is not.  On
the scheme-less bare host `"www.x.com"` the first pass appends a trailing
slash (contradicting the function's own docstring, "path (no trailing
slash)") and the second pass removes it. -/
theorem c1_canon_url_not_idempotent :
    canonUrl "www.x.com" = "https://www.x.com/" ∧
    canonUrl (canonUrl "www.x.com") = "https://www.x.com" ∧
    canonUrl (canonUrl "www.x.com") ≠ canonUrl "www.x.com" := by
  refine ⟨rfl, rfl, ?_⟩
  decide

/-- C3: the follower parser is not total.  `"."` (likewise `"1.2.3"`)
matches the shorthand regex `^([\d\.]+)\s*([kmb])?$`, and the un-guarded
`float(m.group(1))` then raises `ValueError`. -/
theorem c3_followers_to_int_raises :
    followersToInt (PyVal.str ".") = .error .valueError ∧
    followersToInt (PyVal.str "1.2.3") = .error .valueError :=
  ⟨rfl, rfl⟩

/-- C5: a raw record whose `location` field holds a (truthy) dict
short-circuits `item.get("location") or glean_location(item)`, so the
Lead's location is the raw nested object, not a flattened comma-joined
string. -/
theorem c5_location_raw_dict_passthrough :
    (normalizeItem [("location", PyVal.dict [("city", PyVal.str "Delhi")])] "x.json").map
      Lead.location = .ok (PyVal.dict [("city", PyVal.str "Delhi")]) := rfl

/-- C7: bio phone mining runs only when the flag is enabled, and a Lead
with a non-empty phone is returned unchanged by the mining step. -/
theorem c7_bio_mining_only_fills_empty_phone :
    (∀ leads, mineStage false leads = leads) ∧
    (∀ L : Lead, L.phone ≠ "" → mineOne L = L) := by
  constructor
  · intro leads; rfl
  · intro L h
    unfold mineOne
    rw [if_neg h]

/-- Witness for C7 at a concrete Lead whose bio contains a phone-like
pattern but whose phone is already set. -/
def leadWithPhone : Lead :=
  { social_media := "instagram", platform := "instagram", handle := "a",
    display_name := "", canonical_url := "https://instagram.com/a",
    followers_int := 10, bio := "call 9876543210", verified_bool := false,
    business_bool := false, location := .str "", website := .str "",
    email := "", phone := "+1 222 333 4444", source_file := "f.json",
    external_links := [], linkedin_1 := "", linkedin_2 := "", linkedin_3 := "" }

theorem c7_bio_mining_only_fills_empty_phone_witness :
    mineStage false [leadWithPhone] = [leadWithPhone] ∧
    mineOne leadWithPhone = leadWithPhone :=
  ⟨c7_bio_mining_only_fills_empty_phone.1 [leadWithPhone],
   c7_bio_mining_only_fills_empty_phone.2 leadWithPhone (by decide)⟩

/-- C8: the documented shorthand values. -/
theorem c8_follower_shorthand_values :
    followersToInt (PyVal.str "1.5k") = .ok 1500 ∧
    followersToInt (PyVal.str "2.3M") = .ok 2300000 ∧
    followersToInt (PyVal.str "405.1K") = .ok 405100 := by
  refine ⟨?_, ?_, ?_⟩ <;> with_unfolding_all rfl

theorem truthy_orV_false (a b : PyVal) :
    truthy (pyOrV a (pyOrV b (.bool false))) = (truthy a || truthy b) := by
  by_cases ha : truthy a = true
  · simp [pyOrV, ha]
  · have ha' : truthy a = false := by simpa using ha
    by_cases hb : truthy b = true
    · simp [pyOrV, ha', hb]
    · have hb' : truthy b = false := by simpa using hb
      simp only [pyOrV, ha', hb', Bool.false_eq_true, if_false]
      rfl

/-- C10: `verified_bool` / `business_bool` are exactly the Python
truthiness of the first truthy alias field — so any non-empty string
(such as `"false"`) yields `True`, and only absent/falsy raw values
yield `False`. -/
theorem c10_verified_business_truthiness :
    ∀ (item : List (String × PyVal)) (sf : String) (lead : Lead),
      normalizeItem item sf = .ok lead →
      lead.verified_bool
          = (truthy (pyGet item "is_verified") || truthy (pyGet item "verified")) ∧
      lead.business_bool
          = (truthy (pyGet item "is_business_account") || truthy (pyGet item "business")) := by
  intro item sf lead h
  unfold normalizeItem at h
  obtain ⟨pr, _, h⟩ := bindOkInv h
  obtain ⟨cu, _, h⟩ := bindOkInv h
  obtain ⟨sm, _, h⟩ := bindOkInv h
  obtain ⟨links, _, h⟩ := bindOkInv h
  obtain ⟨hd, _, h⟩ := bindOkInv h
  obtain ⟨dn, _, h⟩ := bindOkInv h
  obtain ⟨fi, _, h⟩ := bindOkInv h
  obtain ⟨bo, _, h⟩ := bindOkInv h
  simp only [pure, Except.pure, Except.ok.injEq] at h
  subst h
  exact ⟨truthy_orV_false _ _, truthy_orV_false _ _⟩

def itemC10 : List (String × PyVal) :=
  [("is_verified", PyVal.str "false"), ("business", PyVal.int 2)]

def leadC10 : Lead :=
  { social_media := "", platform := "", handle := "", display_name := "",
    canonical_url := "", followers_int := 0, bio := "", verified_bool := true,
    business_bool := true, location := .str "", website := .str "",
    email := "", phone := "", source_file := "x.json", external_links := [],
    linkedin_1 := "", linkedin_2 := "", linkedin_3 := "" }

/-- Witness for C10: the record with `is_verified = "false"` (a truthy
string) and `business = 2` yields `verified_bool = business_bool = True`. -/
theorem c10_verified_business_truthiness_witness :
    leadC10.verified_bool
        = (truthy (pyGet itemC10 "is_verified") || truthy (pyGet itemC10 "verified")) ∧
    leadC10.business_bool
        = (truthy (pyGet itemC10 "is_business_account") || truthy (pyGet itemC10 "business")) :=
  c10_verified_business_truthiness itemC10 "x.json" leadC10 rfl

/-- C2 counterexample: the record `{"url": "/"}` normalizes fine, and its
canonical URL is `"https:///"` — non-empty, ending in `/`, with an empty
host and path `/` (so it is not "a bare host with empty path"). -/
theorem c2_canonical_url_slash_counterexample :
    (normalizeItem [("url", PyVal.str "/")] "x.json").map Lead.canonical_url
      = .ok "https:///" ∧
    strEnds "/" "https:///" = true ∧
    urlparseM "https:///" = some ⟨"https", "", "/", "", "", ""⟩ :=
  ⟨rfl, by decide, by decide⟩

/-- Shape of every `canon_url` result: empty, `https://`-prefixed with a
constrained trailing slash, or the trimmed original on parse failure. -/
theorem canonUrl_shape (u : String) :
    canonUrl u = "" ∨
    (strStarts "https://" (canonUrl u) = true ∧
      (strEnds "/" (canonUrl u) = true →
        canonUrl u = "https://" ∨
        ∃ h : String, canonUrl u = "https://" ++ h ++ "/" ∧ '/' ∉ h.data)) ∨
    (urlparseM u = Option.none ∧ canonUrl u = pyStrip u) := by
  by_cases hu : u = ""
  · left
    simp [canonUrl, hu]
  cases hp : urlparseM u with
  | none =>
    right; right
    refine ⟨rfl, ?_⟩
    unfold canonUrl
    rw [if_neg hu, hp]
  | some pu =>
    right; left
    have hred : canonUrl u =
        (if pyLowerStr pu.netloc = "" ∧ pu.path ≠ "" then
          match splitChar '/' pu.path.data with
          | [] => "https://"
          | seg0 :: segs =>
            "https://" ++ pyLowerStr ⟨seg0⟩ ++ "/"
              ++ ⟨stripRightBy (· == '/') (joinChar '/' segs)⟩
        else "https://" ++ pyLowerStr pu.netloc ++ pyRstripSlash pu.path) := by
      unfold canonUrl
      rw [if_neg hu, hp]
    rw [hred]; clear hred
    split
    next hcond =>
      cases hsegs : splitChar '/' pu.path.data with
      | nil => exact absurd hsegs (splitByP_ne_nil _ _)
      | cons seg0 segs =>
        dsimp only
        constructor
        · exact strStarts_of_data
            ⟨(pyLowerStr ⟨seg0⟩).data
              ++ '/' :: stripRightBy (· == '/') (joinChar '/' segs),
             by simp [strAppend_data]⟩
        · intro hend
          rcases getLast?_stripRightBy (· == '/') (joinChar '/' segs) with hS | ⟨c, hcS, hpc⟩
        -- S = []: the result is exactly https://<host>/
          · right
            refine ⟨pyLowerStr ⟨seg0⟩, ?_, ?_⟩
            · apply strData_eq
              simp [strAppend_data, hS]
            · intro hmem
              have h0 : '/' ∈ seg0 := mem_map_toLower (by decide) hmem
              have := splitByP_mem_false (hsegs ▸ List.mem_cons_self seg0 segs) h0
              simp at this
          · exfalso
            rw [strEnds_slash_iff] at hend
            have hSne : stripRightBy (· == '/') (joinChar '/' segs) ≠ [] := by
              intro hh
              rw [hh] at hcS
              cases hcS
            simp only [strAppend_data] at hend
            rw [List.getLast?_append_of_ne_nil _ hSne, hcS] at hend
            have : c = '/' := by simpa using hend
            rw [this] at hpc
            simp at hpc
    next hcond =>
      constructor
      · exact strStarts_of_data
          ⟨(pyLowerStr pu.netloc).data ++ (pyRstripSlash pu.path).data,
           by simp [strAppend_data]⟩
      · intro hend
        rw [strEnds_slash_iff] at hend
        simp only [strAppend_data] at hend
        have hPd : (pyRstripSlash pu.path).data
            = stripRightBy (· == '/') pu.path.data := rfl
        rcases getLast?_stripRightBy (· == '/') pu.path.data with hP | ⟨c, hcP, hpc⟩
        · -- path empty after rstrip
          rw [hPd, hP, List.append_nil] at hend
          by_cases hhost : pu.netloc.data = []
          · left
            apply strData_eq
            simp [strAppend_data, hhost, hPd, hP, pyLowerStr]
          · exfalso
            have hmapne : (pyLowerStr pu.netloc).data ≠ [] := by
              simpa [pyLowerStr] using hhost
            rw [List.getLast?_append_of_ne_nil _ hmapne] at hend
            have hend2 : (pu.netloc.data.map Char.toLower).getLast? = some '/' := hend
            rw [lastMap] at hend2
            rcases hx : pu.netloc.data.getLast? with _ | x
            · rw [hx] at hend2; cases hend2
            · rw [hx] at hend2
              have hx' : Char.toLower x = '/' := by simpa using hend2
              have : x = '/' := toLower_eq_low (by decide) hx'
              exact urlparseM_netloc_no_slash hp (mem_of_lastEq (this ▸ hx))
        · exfalso
          have hPne : (pyRstripSlash pu.path).data ≠ [] := by
            rw [hPd]
            intro hh
            rw [hh] at hcP
            cases hcP
          rw [List.getLast?_append_of_ne_nil _ hPne, hPd, hcP] at hend
          have : c = '/' := by simpa using hend
          rw [this] at hpc
          simp at hpc

/-- C2 as amended: a non-empty canonical URL — of `canon_url` itself, and
of every Lead `normalize_item` produces — either starts with `https://`,
ending in `/` only in the degenerate forms `https://` (empty host, empty
path) or `https://<slash-free host>/` (the scheme-less branch with an
empty remainder, e.g. inputs `"www.x.com"` or `"/"`), or it is the
trimmed original input, the documented parse-failure fallback. -/
theorem c2_canonical_url_shape :
    (∀ u : String,
      canonUrl u = "" ∨
      (strStarts "https://" (canonUrl u) = true ∧
        (strEnds "/" (canonUrl u) = true →
          canonUrl u = "https://" ∨
          ∃ h : String, canonUrl u = "https://" ++ h ++ "/" ∧ '/' ∉ h.data)) ∨
      (urlparseM u = Option.none ∧ canonUrl u = pyStrip u)) ∧
    (∀ (item : List (String × PyVal)) (sf : String) (lead : Lead),
      normalizeItem item sf = .ok lead →
      lead.canonical_url = "" ∨
      (strStarts "https://" lead.canonical_url = true ∧
        (strEnds "/" lead.canonical_url = true →
          lead.canonical_url = "https://" ∨
          ∃ h : String, lead.canonical_url = "https://" ++ h ++ "/" ∧ '/' ∉ h.data)) ∨
      (∃ u : String, urlparseM u = Option.none ∧ lead.canonical_url = pyStrip u)) := by
  refine ⟨canonUrl_shape, ?_⟩
  intro item sf lead h
  unfold normalizeItem at h
  obtain ⟨pr, _, h⟩ := bindOkInv h
  obtain ⟨cu, hcu, h⟩ := bindOkInv h
  obtain ⟨sm, _, h⟩ := bindOkInv h
  obtain ⟨links, _, h⟩ := bindOkInv h
  obtain ⟨hd, _, h⟩ := bindOkInv h
  obtain ⟨dn, _, h⟩ := bindOkInv h
  obtain ⟨fi, _, h⟩ := bindOkInv h
  obtain ⟨bo, _, h⟩ := bindOkInv h
  simp only [pure, Except.pure, Except.ok.injEq] at h
  subst h
  unfold pyCanonUrl at hcu
  split at hcu
  · split at hcu
    · rename_i s heqv
      simp only [Except.ok.injEq] at hcu
      subst hcu
      rcases canonUrl_shape s with h1 | h2 | h3
      · left; exact h1
      · right; left; exact h2
      · right; right; exact ⟨s, h3⟩
    · cases hcu
  · simp only [Except.ok.injEq] at hcu
    subst hcu
    left; rfl

def itemC2 : List (String × PyVal) := [("url", PyVal.str "www.x.com")]

def leadC2 : Lead :=
  { social_media := "", platform := "", handle := "", display_name := "",
    canonical_url := "https://www.x.com/", followers_int := 0, bio := "",
    verified_bool := false, business_bool := false, location := .str "",
    website := .str "", email := "", phone := "", source_file := "x.json",
    external_links := [], linkedin_1 := "", linkedin_2 := "", linkedin_3 := "" }

/-- Witness for C2 (amended), at the record `{"url": "www.x.com"}` whose
canonical URL is the degenerate `https://www.x.com/`. -/
theorem c2_canonical_url_shape_witness :
    leadC2.canonical_url = "" ∨
    (strStarts "https://" leadC2.canonical_url = true ∧
      (strEnds "/" leadC2.canonical_url = true →
        leadC2.canonical_url = "https://" ∨
        ∃ h : String, leadC2.canonical_url = "https://" ++ h ++ "/" ∧ '/' ∉ h.data)) ∨
    (∃ u : String, urlparseM u = Option.none ∧ leadC2.canonical_url = pyStrip u) :=
  c2_canonical_url_shape.2 itemC2 "x.json" leadC2 rfl

/-! ## C4: sign analysis of the follower parser -/

theorem pySign_neg (cs : List Char) : (pySign cs).1 = false ∨ '-' ∈ cs := by
  unfold pySign
  split
  · left; rfl
  · right; simp
  · left; rfl

theorem mantissa_nonneg {cs : List Char} {q : ℚ} (h : mantissa? cs = some q) :
    0 ≤ q := by
  unfold mantissa? at h
  split at h
  · split at h
    · simp only [Option.some.injEq] at h
      subst h
      positivity
    · cases h
  · split at h
    · cases h
    · split at h
      · simp only [Option.some.injEq] at h
        subst h
        positivity
      · cases h
  · cases h

theorem qpow10_pos (e : Int) : 0 < qpow10 e := by
  unfold qpow10
  split <;> positivity

theorem floatBody_nonneg {cs : List Char} {q : ℚ}
    (h : floatBody? cs = some (.num q)) : 0 ≤ q := by
  unfold floatBody? at h
  dsimp only at h
  split at h
  · cases h
  · split at h
    · cases h
    · split at h
      · rename_i m heq
        rcases hm : mantissa? m with _ | q0
        · rw [hm] at h; cases h
        · rw [hm] at h
          simp only [Option.map_some', Option.some.injEq, PyFloat.num.injEq] at h
          exact h ▸ mantissa_nonneg hm
      · rename_i m e heq
        split at h
        · rename_i mq ex hm he
          simp only [Option.some.injEq, PyFloat.num.injEq] at h
          exact h ▸ mul_nonneg (mantissa_nonneg hm) (le_of_lt (qpow10_pos ex))
        · cases h
      · cases h

theorem pyFloatOfString_nonneg {s : String} {q : ℚ}
    (hnd : '-' ∉ s.data) (h : pyFloatOfString s = some (.num q)) : 0 ≤ q := by
  unfold pyFloatOfString at h
  dsimp only at h
  split at h
  case _ q0 heq =>
    simp only [Option.some.injEq, PyFloat.num.injEq] at h
    rcases pySign_neg (stripBy pyIsSpace s.data) with hneg | hmem
    · rw [hneg, if_neg (by simp)] at h
      exact h ▸ floatBody_nonneg heq
    · exact absurd (mem_of_mem_stripBy hmem) hnd
  · cases h
  · cases h
  · cases h

theorem intTrunc_nonneg {q : ℚ} (h : 0 ≤ q) : 0 ≤ intTrunc q := by
  unfold intTrunc
  rw [if_neg (not_lt.mpr h)]
  exact Rat.le_floor.mpr (by exact_mod_cast h)

theorem noDash_chain {v : PyVal} (h : '-' ∉ (pyStr v).data) :
    '-' ∉ (removeChar ',' (pyLowerStr (pyStrip (pyStr v)))).data := by
  intro hm
  apply h
  have h1 : '-' ∈ (pyLowerStr (pyStrip (pyStr v))).data :=
    List.mem_of_mem_filter hm
  have h2 : '-' ∈ (pyStrip (pyStr v)).data := mem_map_toLower (by decide) h1
  exact mem_of_mem_stripBy h2

/-- The follower parser result is non-negative whenever the stringified
followers value contains no minus sign. -/
theorem followersToInt_nonneg {x : PyVal} {n : Int}
    (hnd : '-' ∉ (pyStr x).data) (h : followersToInt x = .ok n) : 0 ≤ n := by
  unfold followersToInt at h
  split at h
  · simp only [Except.ok.injEq] at h; omega
  · simp only [Except.ok.injEq] at h; omega
  next x' =>
    dsimp only at h
    split at h
    · -- shorthand branch
      split at h
      case _ q heq =>
        simp only [Except.ok.injEq] at h
        subst h
        apply intTrunc_nonneg
        apply mul_nonneg
        · apply pyFloatOfString_nonneg _ heq
          intro hm
          have := List.mem_takeWhile_imp hm
          simp [isDigitDot] at this
        · split
          · norm_num
          · split
            · norm_num
            · split <;> norm_num
      · cases h
    · -- plain numeric fallback
      split at h
      case _ q heq =>
        simp only [Except.ok.injEq] at h
        subst h
        exact intTrunc_nonneg (pyFloatOfString_nonneg (noDash_chain hnd) heq)
      · simp only [Except.ok.injEq] at h; omega

/-- C4 counterexample: the record `{"followers": "-5"}` produces a Lead
with `followers_int = -5 < 0` (the regex rejects the minus sign, and the
plain `int(float(s))` fallback accepts negatives). -/
theorem c4_negative_followers_counterexample :
    (normalizeItem [("followers", PyVal.str "-5")] "x.json").map Lead.followers_int
      = .ok (-5) ∧ (-5 : Int) < 0 := by
  refine ⟨by with_unfolding_all rfl, by norm_num⟩

/-- C4 as amended: `followers_int ≥ 0` for every raw record whose
(stringified) followers value contains no `'-'` character; a value such as
`"-5"` is parsed by the numeric fallback and kept negative. -/
theorem c4_followers_nonneg_without_minus :
    ∀ (item : List (String × PyVal)) (sf : String) (lead : Lead),
      normalizeItem item sf = .ok lead →
      '-' ∉ (pyStr (followersField item)).data →
      0 ≤ lead.followers_int := by
  intro item sf lead h hnd
  unfold normalizeItem at h
  obtain ⟨pr, _, h⟩ := bindOkInv h
  obtain ⟨cu, _, h⟩ := bindOkInv h
  obtain ⟨sm, _, h⟩ := bindOkInv h
  obtain ⟨links, _, h⟩ := bindOkInv h
  obtain ⟨hd, _, h⟩ := bindOkInv h
  obtain ⟨dn, _, h⟩ := bindOkInv h
  obtain ⟨fi, hfi, h⟩ := bindOkInv h
  obtain ⟨bo, _, h⟩ := bindOkInv h
  simp only [pure, Except.pure, Except.ok.injEq] at h
  subst h
  exact followersToInt_nonneg hnd hfi

def itemC4 : List (String × PyVal) := [("followers", PyVal.str "1200")]

def leadC4 : Lead :=
  { social_media := "", platform := "", handle := "", display_name := "",
    canonical_url := "", followers_int := 1200, bio := "", verified_bool := false,
    business_bool := false, location := .str "", website := .str "",
    email := "", phone := "", source_file := "x.json", external_links := [],
    linkedin_1 := "", linkedin_2 := "", linkedin_3 := "" }

theorem c4_followers_nonneg_without_minus_witness : 0 ≤ leadC4.followers_int :=
  c4_followers_nonneg_without_minus itemC4 "x.json" leadC4
    (by with_unfolding_all rfl) (by decide)

/-! ## C9: structure of `URL_RE` matches -/

/-- A `URL_RE` match: some case-insensitive scheme-or-`www.` head followed
by the rest of the match, and no whitespace anywhere. -/
def goodMatch (m : List Char) : Prop :=
  (∃ hd rest, m = hd ++ rest ∧
    (hd.map Char.toLower = "https://".data ∨ hd.map Char.toLower = "http://".data ∨
      hd.map Char.toLower = "www.".data)) ∧
  ∀ c ∈ m, pyIsSpace c = false

theorem toLower_self {c : Char} (h : ¬(65 ≤ c.toNat ∧ c.toNat ≤ 90)) :
    Char.toLower c = c := by
  simp only [Char.toLower]
  exact if_neg fun hh => h ⟨hh.1, hh.2⟩

theorem pyIsSpace_cases {c : Char} (h : pyIsSpace c = true) :
    c = ' ' ∨ c = '\t' ∨ c = '\n' ∨ c = '\x0d' ∨ c = '\x0b' ∨ c = '\x0c' := by
  have := by simpa [pyIsSpace] using h
  tauto

theorem ciTake_sound {pat : List Char} :
    ∀ {cs m r : List Char}, ciTake pat cs = some (m, r) →
      m.map Char.toLower = pat := by
  induction pat with
  | nil =>
    intro cs m r h
    simp only [ciTake, Option.some.injEq, Prod.mk.injEq] at h
    rw [← h.1]
    rfl
  | cons p ps ih =>
    intro cs m r h
    cases cs with
    | nil => simp [ciTake] at h
    | cons c cs' =>
      simp only [ciTake] at h
      split at h
      · rcases hm : ciTake ps cs' with _ | ⟨m', r'⟩
        · rw [hm] at h; cases h
        · rw [hm] at h
          simp only [Option.map_some', Option.some.injEq, Prod.mk.injEq] at h
          rw [← h.1]
          simp only [List.map_cons, List.cons.injEq]
          exact ⟨by rename_i hc; exact (beq_iff_eq.mp hc), ih hm⟩
      · cases h

theorem headPat_no_ws {pat m : List Char}
    (hpat : pat = "https://".data ∨ pat = "http://".data ∨ pat = "www.".data)
    (hmap : m.map Char.toLower = pat) : ∀ c ∈ m, pyIsSpace c = false := by
  intro c hc
  by_contra hws
  have hws' : pyIsSpace c = true := by simpa using hws
  have hlow : Char.toLower c ∈ pat := hmap ▸ List.mem_map_of_mem _ hc
  have hself : Char.toLower c = c :=
    toLower_self (by
      rcases pyIsSpace_cases hws' with rfl | rfl | rfl | rfl | rfl | rfl <;> decide)
  rw [hself] at hlow
  rcases hpat with rfl | rfl | rfl <;>
    rcases pyIsSpace_cases hws' with rfl | rfl | rfl | rfl | rfl | rfl <;>
    exact absurd hlow (by decide)

theorem headDisj_no_ws {hd : List Char}
    (hpat : hd.map Char.toLower = "https://".data ∨
      hd.map Char.toLower = "http://".data ∨ hd.map Char.toLower = "www.".data) :
    ∀ c ∈ hd, pyIsSpace c = false := by
  rcases hpat with h | h | h
  · exact headPat_no_ws (Or.inl rfl) h
  · exact headPat_no_ws (Or.inr (Or.inl rfl)) h
  · exact headPat_no_ws (Or.inr (Or.inr rfl)) h

theorem hostChar_no_ws {c : Char} (h : hostChar c = true) : pyIsSpace c = false := by
  by_contra hws
  have hws' : pyIsSpace c = true := by simpa using hws
  rcases pyIsSpace_cases hws' with rfl | rfl | rfl | rfl | rfl | rfl <;>
    exact absurd h (by decide)

theorem tailChar_no_ws {c : Char} (h : tailChar c = true) : pyIsSpace c = false := by
  unfold tailChar at h
  simp only [Bool.not_eq_true', Bool.or_eq_false_iff] at h
  exact h.1.1.1.1

theorem urlHeadMatch_sound {cs hd r : List Char}
    (h : urlHeadMatch cs = some (hd, r)) :
    hd.map Char.toLower = "https://".data ∨ hd.map Char.toLower = "http://".data ∨
      hd.map Char.toLower = "www.".data := by
  unfold urlHeadMatch at h
  rcases h1 : ciTake "https://".data cs with _ | ⟨m1, r1⟩ <;> rw [h1] at h
  · simp only [Option.orElse] at h
    rcases h2 : ciTake "http://".data cs with _ | ⟨m2, r2⟩ <;> rw [h2] at h
    · simp only [Option.orElse] at h
      exact Or.inr (Or.inr (ciTake_sound h))
    · simp only [Option.some.injEq, Prod.mk.injEq] at h
      exact Or.inr (Or.inl (h.1 ▸ ciTake_sound h2))
  · simp only [Option.orElse, Option.some.injEq, Prod.mk.injEq] at h
    exact Or.inl (h.1 ▸ ciTake_sound h1)

theorem urlMatchAt_sound {cs m r : List Char}
    (h : urlMatchAt cs = some (m, r)) : goodMatch m := by
  unfold urlMatchAt at h
  rcases hh : urlHeadMatch cs with _ | ⟨hd, r1⟩ <;> rw [hh] at h
  · cases h
  · dsimp only at h
    split at h
    · cases h
    · have hpat := urlHeadMatch_sound hh
      split at h
      · rename_i r3 heq
        simp only [Option.some.injEq, Prod.mk.injEq] at h
        rw [← h.1]
        constructor
        · exact ⟨hd, r1.takeWhile hostChar ++ '/' :: r3.takeWhile tailChar,
            by rw [List.append_assoc], hpat⟩
        · intro c hc
          rcases List.mem_append.mp hc with hc2 | hc3
          · rcases List.mem_append.mp hc2 with hcd | hcb
            · exact headDisj_no_ws hpat _ hcd
            · exact hostChar_no_ws (List.mem_takeWhile_imp hcb)
          · rcases List.mem_cons.mp hc3 with rfl | hct
            · decide
            · exact tailChar_no_ws (List.mem_takeWhile_imp hct)
      · rename_i r2 heq
        simp only [Option.some.injEq, Prod.mk.injEq] at h
        rw [← h.1]
        constructor
        · exact ⟨hd, r1.takeWhile hostChar, rfl, hpat⟩
        · intro c hc
          rcases List.mem_append.mp hc with hcd | hcb
          · exact headDisj_no_ws hpat _ hcd
          · exact hostChar_no_ws (List.mem_takeWhile_imp hcb)

theorem urlScan_sound :
    ∀ (fuel : Nat) (prev : Bool) (cs : List Char) (u : String),
      u ∈ urlScan fuel prev cs → goodMatch u.data := by
  intro fuel
  induction fuel with
  | zero => intro prev cs u h; simp [urlScan] at h
  | succ f ih =>
    intro prev cs u h
    cases cs with
    | nil => simp [urlScan] at h
    | cons c rest =>
      simp only [urlScan] at h
      split at h
      · split at h
        · rename_i m r heq
          rcases List.mem_cons.mp h with rfl | hmem
          · exact urlMatchAt_sound heq
          · exact ih _ _ _ hmem
        · exact ih _ _ _ h
      · exact ih _ _ _ h

theorem dropWhile_eq_self_of_false {p : Char → Bool} {l : List Char}
    (h : ∀ c ∈ l, p c = false) : l.dropWhile p = l := by
  cases l with
  | nil => rfl
  | cons a t =>
    rw [List.dropWhile_cons, if_neg]
    rw [h a (List.mem_cons_self a t)]
    simp

theorem stripBy_eq_self {p : Char → Bool} {l : List Char}
    (h : ∀ c ∈ l, p c = false) : stripBy p l = l := by
  unfold stripBy stripLeftBy stripRightBy
  rw [dropWhile_eq_self_of_false h,
    dropWhile_eq_self_of_false (fun c hc => h c (List.mem_reverse.mp hc)),
    List.reverse_reverse]

theorem pyStrip_eq_self {s : String} (h : ∀ c ∈ s.data, pyIsSpace c = false) :
    pyStrip s = s := by
  apply strData_eq
  show stripBy pyIsSpace s.data = s.data
  exact stripBy_eq_self h

theorem normLinks_sound :
    ∀ (urls : List String) (seen : List String) (u : String),
      (∀ v ∈ urls, goodMatch v.data) → u ∈ normLinks urls seen →
      strStarts "http://" (pyLowerStr u) = true ∨
        strStarts "https://" (pyLowerStr u) = true := by
  intro urls
  induction urls with
  | nil => intro seen u _ h; simp [normLinks] at h
  | cons v vs ih =>
    intro seen u hall h
    have hv := hall v (List.mem_cons_self v vs)
    rcases hv with ⟨⟨hd, rest, hsplit, hpat⟩, hnws⟩
    have hrec : ∀ seen, u ∈ normLinks vs seen →
        strStarts "http://" (pyLowerStr u) = true ∨
          strStarts "https://" (pyLowerStr u) = true :=
      fun sn hm => ih sn u (fun w hw => hall w (List.mem_cons_of_mem v hw)) hm
    simp only [normLinks] at h
    split at h
    next hwww =>
      -- the match was rewritten to "https://" + v
      split at h
      · rcases List.mem_cons.mp h with rfl | hmem
        · have hnws2 : ∀ c ∈ ("https://" ++ v).data, pyIsSpace c = false := by
            intro c hc
            rw [strAppend_data] at hc
            rcases List.mem_append.mp hc with hc1 | hc2
            · rcases (by simpa using hc1 :
                c = 'h' ∨ c = 't' ∨ c = 't' ∨ c = 'p' ∨ c = 's' ∨
                  c = ':' ∨ c = '/' ∨ c = '/') with
                rfl | rfl | rfl | rfl | rfl | rfl | rfl | rfl <;> decide
            · exact hnws c hc2
          rw [pyStrip_eq_self hnws2]
          right
          apply strStarts_of_data
          refine ⟨(pyLowerStr v).data, ?_⟩
          show (("https://" ++ v).data.map Char.toLower) = _
          rw [strAppend_data, List.map_append]
          rfl
        · exact hrec _ hmem
      · exact hrec _ h
    next hwww =>
      split at h
      · rcases List.mem_cons.mp h with rfl | hmem
        · rw [pyStrip_eq_self hnws]
          rcases hpat with hp | hp | hp
          · right
            apply strStarts_of_data
            refine ⟨rest.map Char.toLower, ?_⟩
            show v.data.map Char.toLower = _
            rw [hsplit, List.map_append, hp]
          · left
            apply strStarts_of_data
            refine ⟨rest.map Char.toLower, ?_⟩
            show v.data.map Char.toLower = _
            rw [hsplit, List.map_append, hp]
          · exfalso
            apply hwww
            apply strStarts_of_data
            refine ⟨rest.map Char.toLower, ?_⟩
            show v.data.map Char.toLower = _
            rw [hsplit, List.map_append, hp]
        · exact hrec _ hmem
      · exact hrec _ h

/-- C9 counterexample: the extractor is case-insensitive but only
rewrites `www.` matches, so an upper-case scheme survives verbatim and
the extracted link does not begin with the exact strings `http://` or
`https://`. -/
theorem c9_uppercase_scheme_counterexample :
    extractExternalLinksFromBio "HTTP://EXAMPLE.COM" = ["HTTP://EXAMPLE.COM"] ∧
    (strStarts "http://" "HTTP://EXAMPLE.COM"
      || strStarts "https://" "HTTP://EXAMPLE.COM") = false :=
  ⟨rfl, by decide⟩

/-- C9 as amended: every link returned by the bio extractor (and hence
every entry of a Lead's `external_links`) begins with `http://` or
`https://` up to ASCII case: its lower-casing starts with one of the two
exact schemes.  Bare `www.` matches are rewritten to start with
`https://`. -/
theorem c9_links_scheme :
    (∀ bio : String, ∀ u ∈ extractExternalLinksFromBio bio,
        strStarts "http://" (pyLowerStr u) = true ∨
        strStarts "https://" (pyLowerStr u) = true) ∧
    (∀ (item : List (String × PyVal)) (sf : String) (lead : Lead),
        normalizeItem item sf = .ok lead →
        ∀ u ∈ lead.external_links,
          strStarts "http://" (pyLowerStr u) = true ∨
          strStarts "https://" (pyLowerStr u) = true) := by
  have part1 : ∀ bio : String, ∀ u ∈ extractExternalLinksFromBio bio,
      strStarts "http://" (pyLowerStr u) = true ∨
      strStarts "https://" (pyLowerStr u) = true := by
    intro bio u h
    unfold extractExternalLinksFromBio at h
    split at h
    · cases h
    · exact normLinks_sound _ [] u
        (fun v hv => urlScan_sound _ _ _ v hv) h
  refine ⟨part1, ?_⟩
  intro item sf lead h u hu
  unfold normalizeItem at h
  obtain ⟨pr, _, h⟩ := bindOkInv h
  obtain ⟨cu, _, h⟩ := bindOkInv h
  obtain ⟨sm, _, h⟩ := bindOkInv h
  obtain ⟨links, hlinks, h⟩ := bindOkInv h
  obtain ⟨hd, _, h⟩ := bindOkInv h
  obtain ⟨dn, _, h⟩ := bindOkInv h
  obtain ⟨fi, _, h⟩ := bindOkInv h
  obtain ⟨bo, _, h⟩ := bindOkInv h
  simp only [pure, Except.pure, Except.ok.injEq] at h
  subst h
  unfold pyExtractLinks at hlinks
  split at hlinks
  · split at hlinks
    · rename_i s heq
      simp only [Except.ok.injEq] at hlinks
      subst hlinks
      exact part1 s u hu
    · cases hlinks
  · simp only [Except.ok.injEq] at hlinks
    subst hlinks
    cases hu

/-- Witness for C9 at a concrete bio containing a bare `www.` link. -/
theorem c9_links_scheme_witness :
    strStarts "http://" (pyLowerStr "https://www.mytrips.com") = true ∨
    strStarts "https://" (pyLowerStr "https://www.mytrips.com") = true :=
  c9_links_scheme.1 "Travel blogger, Himachal based. www.mytrips.com"
    "https://www.mytrips.com" (by decide)

/-! ## C6: decimal representations and the dedup key -/

theorem digitChar_isDigit {m : Nat} (h : m < 10) :
    (Nat.digitChar m).isDigit = true := by
  interval_cases m <;> decide

theorem digitChar_val {m : Nat} (h : m < 10) :
    (Nat.digitChar m).toNat - '0'.toNat = m := by
  interval_cases m <;> decide

theorem toDigitsCore_digits :
    ∀ (fuel n : Nat) (acc : List Char), (∀ c ∈ acc, c.isDigit = true) →
      ∀ c ∈ Nat.toDigitsCore 10 fuel n acc, c.isDigit = true := by
  intro fuel
  induction fuel with
  | zero =>
    intro n acc hacc c hc
    simp only [Nat.toDigitsCore] at hc
    exact hacc c hc
  | succ f ih =>
    intro n acc hacc c hc
    simp only [Nat.toDigitsCore] at hc
    have hstep : ∀ c ∈ Nat.digitChar (n % 10) :: acc, c.isDigit = true := by
      intro c' hc'
      rcases List.mem_cons.mp hc' with rfl | hm
      · exact digitChar_isDigit (Nat.mod_lt _ (by norm_num))
      · exact hacc c' hm
    split at hc
    · exact hstep c hc
    · exact ih _ _ hstep c hc

theorem repr_digits (n : Nat) : ∀ c ∈ (Nat.repr n).data, c.isDigit = true := by
  intro c hc
  exact toDigitsCore_digits (n + 1) n [] (by simp) c hc

theorem digitsToNat_shift :
    ∀ (l : List Char) (a : Nat),
      List.foldl (fun a c => a * 10 + (c.toNat - '0'.toNat)) a l
        = a * 10 ^ l.length + digitsToNat l := by
  intro l
  induction l with
  | nil => intro a; simp [digitsToNat]
  | cons x xs ih =>
    intro a
    simp only [List.foldl_cons]
    rw [ih (a * 10 + (x.toNat - '0'.toNat))]
    have hx : digitsToNat (x :: xs) = (x.toNat - '0'.toNat) * 10 ^ xs.length
        + digitsToNat xs := by
      simp only [digitsToNat, List.foldl_cons]
      rw [ih (0 * 10 + (x.toNat - '0'.toNat))]
      ring_nf
      rfl
    rw [hx, List.length_cons, pow_succ]
    ring

theorem digitsToNat_cons (x : Char) (xs : List Char) :
    digitsToNat (x :: xs) = (x.toNat - '0'.toNat) * 10 ^ xs.length + digitsToNat xs := by
  simp only [digitsToNat, List.foldl_cons]
  rw [digitsToNat_shift xs (0 * 10 + (x.toNat - '0'.toNat))]
  ring_nf
  rfl

theorem toDigitsCore_val :
    ∀ (fuel n : Nat) (acc : List Char), n < fuel →
      digitsToNat (Nat.toDigitsCore 10 fuel n acc)
        = n * 10 ^ acc.length + digitsToNat acc := by
  intro fuel
  induction fuel with
  | zero => intro n acc h; exact absurd h (Nat.not_lt_zero n)
  | succ f ih =>
    intro n acc hn
    simp only [Nat.toDigitsCore]
    split
    · rename_i h0
      have hlt : n < 10 := by omega
      rw [digitsToNat_cons, digitChar_val (Nat.mod_lt _ (by norm_num)),
        Nat.mod_eq_of_lt hlt]
    · rename_i h0
      have hdiv : n / 10 < f := by omega
      rw [ih (n / 10) _ hdiv, digitsToNat_cons,
        digitChar_val (Nat.mod_lt _ (by norm_num)), List.length_cons, pow_succ]
      conv_rhs => rw [← Nat.div_add_mod n 10]
      ring

theorem repr_val (n : Nat) : digitsToNat (Nat.repr n).data = n := by
  show digitsToNat (Nat.toDigitsCore 10 (n + 1) n []) = n
  rw [toDigitsCore_val (n + 1) n [] (Nat.lt_succ_self n)]
  simp [digitsToNat]

theorem repr_inj {a b : Nat} (h : Nat.repr a = Nat.repr b) : a = b := by
  have hv := congrArg (fun s => digitsToNat s.data) h
  simpa [repr_val] using hv

theorem digits_dash_inj :
    ∀ (d1 : List Char) {d2 s1 s2 : List Char},
      (∀ c ∈ d1, c.isDigit = true) → (∀ c ∈ d2, c.isDigit = true) →
      d1 ++ '-' :: s1 = d2 ++ '-' :: s2 → d1 = d2 ∧ s1 = s2 := by
  intro d1
  induction d1 with
  | nil =>
    intro d2 s1 s2 _ h2 heq
    cases d2 with
    | nil => simpa using heq
    | cons c2 t2 =>
      simp only [List.nil_append, List.cons_append, List.cons.injEq] at heq
      have hdig := h2 c2 (List.mem_cons_self _ _)
      rw [← heq.1] at hdig
      exact absurd hdig (by decide)
  | cons c1 t1 ih =>
    intro d2 s1 s2 h1 h2 heq
    cases d2 with
    | nil =>
      simp only [List.cons_append, List.nil_append, List.cons.injEq] at heq
      have hdig := h1 c1 (List.mem_cons_self _ _)
      rw [heq.1] at hdig
      exact absurd hdig (by decide)
    | cons c2 t2 =>
      simp only [List.cons_append, List.cons.injEq] at heq
      obtain ⟨hd, hs⟩ := ih (fun c hc => h1 c (List.mem_cons_of_mem _ hc))
        (fun c hc => h2 c (List.mem_cons_of_mem _ hc)) heq.2
      exact ⟨by rw [heq.1, hd], hs⟩

theorem row_data (idx : Nat) (sf : String) :
    ("row-" ++ Nat.repr idx ++ "-" ++ sf).data
      = "row-".data ++ ((Nat.repr idx).data ++ '-' :: sf.data) := by
  simp [strAppend_data, List.append_assoc]

theorem rowString_inj {i j : Nat} {s1 s2 : String}
    (h : "row-" ++ Nat.repr i ++ "-" ++ s1 = "row-" ++ Nat.repr j ++ "-" ++ s2) :
    i = j := by
  have hd := congrArg String.data h
  rw [row_data, row_data] at hd
  have h2 := List.append_cancel_left hd
  have h3 := digits_dash_inj _ (repr_digits i) (repr_digits j) h2
  exact repr_inj (strData_eq h3.1)

theorem rowString_no_slash {i : Nat} {sf : String} (hsf : '/' ∉ sf.data) :
    '/' ∉ ("row-" ++ Nat.repr i ++ "-" ++ sf).data := by
  intro hm
  rw [row_data] at hm
  rcases List.mem_append.mp hm with h1 | h2
  · exact absurd h1 (by decide)
  · rcases List.mem_append.mp h2 with h3 | h4
    · exact absurd (repr_digits i '/' h3) (by decide)
    · rcases List.mem_cons.mp h4 with h5 | h6
      · exact absurd h5 (by decide)
      · exact hsf h6

theorem rowString_headChar (i : Nat) (sf : String) :
    ("row-" ++ Nat.repr i ++ "-" ++ sf).data.head? = some 'r' := by
  rw [row_data]
  rfl

/-! ### `enumFrom` and `dedupGo` -/

theorem enumFrom_map_snd : ∀ (n : Nat) (l : List Lead),
    (enumFrom n l).map Prod.snd = l := by
  intro n l
  induction l generalizing n with
  | nil => rfl
  | cons a t ih => simp [enumFrom, ih]

theorem enumFrom_mem_snd : ∀ {n : Nat} {l : List Lead} {p : Nat × Lead},
    p ∈ enumFrom n l → p.2 ∈ l := by
  intro n l
  induction l generalizing n with
  | nil => intro p h; simp [enumFrom] at h
  | cons a t ih =>
    intro p h
    rcases List.mem_cons.mp h with rfl | hm
    · exact List.mem_cons_self _ _
    · exact List.mem_cons_of_mem _ (ih hm)

theorem enumFrom_idx_ge : ∀ {n : Nat} {l : List Lead} {p : Nat × Lead},
    p ∈ enumFrom n l → n ≤ p.1 := by
  intro n l
  induction l generalizing n with
  | nil => intro p h; simp [enumFrom] at h
  | cons a t ih =>
    intro p h
    rcases List.mem_cons.mp h with rfl | hm
    · exact Nat.le_refl n
    · exact Nat.le_of_succ_le (ih hm)

theorem enumFrom_pairwise : ∀ (n : Nat) (l : List Lead),
    (enumFrom n l).Pairwise (fun a b => a.1 < b.1) := by
  intro n l
  induction l generalizing n with
  | nil => exact List.Pairwise.nil
  | cons a t ih =>
    refine List.Pairwise.cons ?_ (ih (n + 1))
    intro q hq
    exact Nat.lt_of_succ_le (enumFrom_idx_ge hq)

theorem dedupGo_sublist : ∀ (l : List (Nat × Lead)) (seen : List (String × String)),
    (dedupGo l seen).Sublist (l.map Prod.snd) := by
  intro l
  induction l with
  | nil => intro seen; simp [dedupGo]
  | cons p rest ih =>
    intro seen
    rcases p with ⟨i, L⟩
    simp only [dedupGo, List.map_cons]
    split
    · exact (ih seen).cons L
    · exact (ih _).cons₂ L

theorem dedupGo_eq_filter :
    ∀ (l : List (Nat × Lead)) (seen : List (String × String)),
      l.Pairwise (fun a b => a.1 < b.1) →
      dedupGo l seen
        = (l.filter fun p => decide (dedupKey p.1 p.2 ∉ seen ∧
            ∀ q ∈ l, q.1 < p.1 → dedupKey q.1 q.2 ≠ dedupKey p.1 p.2)).map
            Prod.snd := by
  intro l
  induction l with
  | nil => intro seen _; rfl
  | cons p rest ih =>
    intro seen hpw
    have hlt : ∀ q ∈ rest, p.1 < q.1 := fun q hq => List.rel_of_pairwise_cons hpw hq
    have hpwr : rest.Pairwise (fun a b => a.1 < b.1) := hpw.of_cons
    rcases p with ⟨i, L⟩
    simp only [dedupGo]
    have hvac : (∀ q ∈ (i, L) :: rest, q.1 < i →
        dedupKey q.1 q.2 ≠ dedupKey i L) := by
      intro q hq hqlt
      rcases List.mem_cons.mp hq with rfl | hm
      · exact absurd hqlt (Nat.lt_irrefl _)
      · exact absurd hqlt (Nat.not_lt.mpr (Nat.le_of_lt (hlt q hm)))
    split
    · rename_i hk
      rw [ih seen hpwr]
      have hpred : (decide (dedupKey i L ∉ seen ∧
          ∀ q ∈ (i, L) :: rest, q.1 < i → dedupKey q.1 q.2 ≠ dedupKey i L))
            = false := by
        simp only [decide_eq_false_iff_not]
        intro hcon
        exact hcon.1 hk
      rw [List.filter_cons_of_neg (by simpa using hpred)]
      congr 1
      apply List.filter_congr
      intro r hr
      rw [decide_eq_decide]
      constructor
      · rintro ⟨hns, hall⟩
        refine ⟨hns, ?_⟩
        intro q hq hqlt
        rcases List.mem_cons.mp hq with rfl | hm
        · intro hkeq
          exact hns (hkeq ▸ hk)
        · exact hall q hm hqlt
      · rintro ⟨hns, hall⟩
        exact ⟨hns, fun q hq hqlt => hall q (List.mem_cons_of_mem _ hq) hqlt⟩
    · rename_i hk
      rw [ih (dedupKey i L :: seen) hpwr]
      have hpred : (decide (dedupKey i L ∉ seen ∧
          ∀ q ∈ (i, L) :: rest, q.1 < i → dedupKey q.1 q.2 ≠ dedupKey i L))
            = true := by
        simp only [decide_eq_true_eq]
        exact ⟨hk, hvac⟩
      rw [List.filter_cons_of_pos (by simpa using hpred), List.map_cons]
      congr 1
      congr 1
      apply List.filter_congr
      intro r hr
      rw [decide_eq_decide]
      constructor
      · rintro ⟨hns, hall⟩
        simp only [List.mem_cons, not_or] at hns
        refine ⟨hns.2, ?_⟩
        intro q hq hqlt
        rcases List.mem_cons.mp hq with rfl | hm
        · exact fun hkeq => hns.1 hkeq.symm
        · exact hall q hm hqlt
      · rintro ⟨hns, hall⟩
        constructor
        · simp only [List.mem_cons, not_or]
          exact ⟨fun hkeq => hall (i, L) (List.mem_cons_self _ _) (hlt r hr) hkeq.symm,
            hns⟩
        · exact fun q hq hqlt => hall q (List.mem_cons_of_mem _ hq) hqlt

/-- C6: the deduplicator computes, in input order, the key
`(social_media, canonical_url)` — falling back to the normalized handle,
then to the index-fresh row key — keeps the first occurrence of each key,
preserves first-seen order (the output is a sublist of the input), and a
Lead with empty `canonical_url` and empty `handle` is always kept; in
particular two such Leads are never duplicates of each other.  The two
hypotheses hold for every Lead the pipeline produces: a non-empty
`canon_url` result always contains `/`, and `source_file` is a glob
basename, which contains no `/`. -/
theorem c6_dedup_first_seen (leads : List Lead)
    (hurl : ∀ L ∈ leads, L.canonical_url ≠ "" → '/' ∈ L.canonical_url.data)
    (hsf : ∀ L ∈ leads, '/' ∉ L.source_file.data) :
    dedup leads
        = ((enumFrom 0 leads).filter fun p =>
            decide (∀ q ∈ enumFrom 0 leads, q.1 < p.1 →
              dedupKey q.1 q.2 ≠ dedupKey p.1 p.2)).map Prod.snd
    ∧ (dedup leads).Sublist leads
    ∧ (∀ p ∈ enumFrom 0 leads, p.2.canonical_url = "" → p.2.handle = "" →
        (∀ q ∈ enumFrom 0 leads, q.1 < p.1 →
          dedupKey q.1 q.2 ≠ dedupKey p.1 p.2) ∧ p.2 ∈ dedup leads) := by
  have hchar : dedup leads
      = ((enumFrom 0 leads).filter fun p =>
          decide (∀ q ∈ enumFrom 0 leads, q.1 < p.1 →
            dedupKey q.1 q.2 ≠ dedupKey p.1 p.2)).map Prod.snd := by
    show dedupGo (enumFrom 0 leads) [] = _
    rw [dedupGo_eq_filter (enumFrom 0 leads) [] (enumFrom_pairwise 0 leads)]
    congr 1
    apply List.filter_congr
    intro r hr
    rw [decide_eq_decide]
    constructor
    · exact fun h => h.2
    · exact fun h => ⟨by simp, h⟩
  refine ⟨hchar, ?_, ?_⟩
  · have hs := dedupGo_sublist (enumFrom 0 leads) []
    rw [enumFrom_map_snd] at hs
    exact hs
  · intro p hp hcu hh
    have hkeyp : dedupKey p.1 p.2
        = (p.2.social_media, "row-" ++ Nat.repr p.1 ++ "-" ++ p.2.source_file) := by
      unfold dedupKey
      rw [if_neg (by simp [hcu]), if_neg (by simp [hh])]
    have hfirst : ∀ q ∈ enumFrom 0 leads, q.1 < p.1 →
        dedupKey q.1 q.2 ≠ dedupKey p.1 p.2 := by
      intro q hq hqlt heq
      rw [hkeyp] at heq
      by_cases hqc : q.2.canonical_url ≠ ""
      · have hkeyq : dedupKey q.1 q.2 = (q.2.social_media, q.2.canonical_url) := by
          unfold dedupKey
          rw [if_pos hqc]
        rw [hkeyq, Prod.mk.injEq] at heq
        have hsl := hurl q.2 (enumFrom_mem_snd hq) hqc
        rw [heq.2] at hsl
        exact rowString_no_slash (hsf p.2 (enumFrom_mem_snd hp)) hsl
      · by_cases hqh : q.2.handle ≠ ""
        · have hkeyq : dedupKey q.1 q.2
              = (q.2.social_media, "@" ++ pyLowerStr q.2.handle) := by
            unfold dedupKey
            rw [if_neg hqc, if_pos hqh]
          rw [hkeyq, Prod.mk.injEq] at heq
          have h2 : ("@" ++ pyLowerStr q.2.handle).data.head?
              = ("row-" ++ Nat.repr p.1 ++ "-" ++ p.2.source_file).data.head? := by
            rw [heq.2]
          rw [rowString_headChar] at h2
          have h3 : ("@" ++ pyLowerStr q.2.handle).data.head? = some '@' := by
            rw [strAppend_data]
            rfl
          rw [h3] at h2
          exact absurd h2 (by decide)
        · have hkeyq : dedupKey q.1 q.2
              = (q.2.social_media,
                 "row-" ++ Nat.repr q.1 ++ "-" ++ q.2.source_file) := by
            unfold dedupKey
            rw [if_neg hqc, if_neg hqh]
          rw [hkeyq, Prod.mk.injEq] at heq
          have := rowString_inj heq.2
          omega
    refine ⟨hfirst, ?_⟩
    rw [hchar]
    exact List.mem_map_of_mem Prod.snd
      (List.mem_filter.mpr ⟨hp, by simpa using hfirst⟩)

/-- Witness for C6: two identical URL-keyed Leads collapse to one, and two
both-empty Leads are both kept. -/
def leadU : Lead :=
  { social_media := "twitter", platform := "twitter", handle := "u",
    display_name := "", canonical_url := "https://x.com/u", followers_int := 1,
    bio := "", verified_bool := false, business_bool := false,
    location := .str "", website := .str "", email := "", phone := "",
    source_file := "a.json", external_links := [],
    linkedin_1 := "", linkedin_2 := "", linkedin_3 := "" }

def leadE : Lead :=
  { social_media := "", platform := "", handle := "", display_name := "",
    canonical_url := "", followers_int := 0, bio := "", verified_bool := false,
    business_bool := false, location := .str "", website := .str "",
    email := "", phone := "", source_file := "a.json", external_links := [],
    linkedin_1 := "", linkedin_2 := "", linkedin_3 := "" }

theorem c6_dedup_first_seen_witness :
    dedup [leadU, leadU, leadE, leadE]
        = ((enumFrom 0 [leadU, leadU, leadE, leadE]).filter fun p =>
            decide (∀ q ∈ enumFrom 0 [leadU, leadU, leadE, leadE], q.1 < p.1 →
              dedupKey q.1 q.2 ≠ dedupKey p.1 p.2)).map Prod.snd
    ∧ (dedup [leadU, leadU, leadE, leadE]).Sublist [leadU, leadU, leadE, leadE]
    ∧ (∀ p ∈ enumFrom 0 [leadU, leadU, leadE, leadE],
        p.2.canonical_url = "" → p.2.handle = "" →
        (∀ q ∈ enumFrom 0 [leadU, leadU, leadE, leadE], q.1 < p.1 →
          dedupKey q.1 q.2 ≠ dedupKey p.1 p.2) ∧
          p.2 ∈ dedup [leadU, leadU, leadE, leadE]) :=
  c6_dedup_first_seen [leadU, leadU, leadE, leadE]
    (by decide) (by decide)

end LeadFormatter
